import Mathlib

/-!
Verification of the core blockchain implementation (src/blockchain/).

The Python source is shallowly embedded as executable Lean definitions:

* Python transaction dictionaries become association lists of JSON-style
  values (`Tx`); Python dicts are represented in their canonical key-sorted
  form, which is exactly the order `json.dumps(..., sort_keys=True)` renders.
* `Block.compute_hash` is `hashlib.sha256(block_string).hexdigest()` where
  `block_string` is the canonical JSON rendering of the five hashed fields.
  The JSON rendering (`blockString`) is embedded faithfully, character by
  character, including Python's `ensure_ascii` string escaping and the
  alphabetical `sort_keys` field order.  The SHA-256 digest step is kept
  abstract as a parameter `H : String → String`; claims that rely on
  collision-freeness of SHA-256 take `Function.Injective H` as an explicit
  hypothesis (the standard ideal-hash reading of the digest).
* Block timestamps are Python floats produced by `time.time()`; no claim
  depends on fractional seconds or float formatting, so timestamps are
  modelled as integers and are supplied explicitly where the source calls
  `time.time()`.
* Methods that mutate `self` become functions returning the new state; a
  raised exception becomes an error value paired with the unchanged state
  (the source raises before mutating in every such path).
* The unbounded proof-of-work search loop is modelled with explicit fuel
  (`none` = the loop has not yet terminated within `fuel` iterations).
* File I/O is modelled at the data level: the JSON document written by
  `save_chain` / read by `load_chain` is the `StoredData` value itself,
  `none` standing for a missing or unreadable file.
-/

/-- JSON-style values appearing inside transaction dictionaries.  Python
`bool` is a subclass of `int` (so `isinstance(True, int)` holds and
`True > 0`); the embedding keeps booleans as a separate constructor and
accounts for that subtyping in the numeric checks.  Float payload values
are outside the model. -/
inductive JVal where
  | null : JVal
  | bool (b : Bool) : JVal
  | int (n : Int) : JVal
  | str (s : String) : JVal
deriving DecidableEq

/-- A transaction: a Python dict with string keys, represented as an
association list in canonical (strictly key-sorted) order — the order in
which `json.dumps(..., sort_keys=True)` renders a dict. -/
abbrev Tx := List (String × JVal)

/-- A block of the chain (`blockchain/block.py`, class `Block`).  The
`hash` field stores the hex digest assigned after mining and is excluded
from `compute_hash`. -/
structure Block where
  index : Int
  timestamp : Int
  transactions : List Tx
  previous_hash : String
  nonce : Int
  hash : String
deriving DecidableEq

/-- Decimal digit character, as Python renders integers. -/
def digitChar : Nat → Char
  | 0 => '0' | 1 => '1' | 2 => '2' | 3 => '3' | 4 => '4'
  | 5 => '5' | 6 => '6' | 7 => '7' | 8 => '8' | _ => '9'

/-- Lowercase hexadecimal digit character, as Python's `\uXXXX` escapes use. -/
def hexDigit : Nat → Char
  | 0 => '0' | 1 => '1' | 2 => '2' | 3 => '3' | 4 => '4'
  | 5 => '5' | 6 => '6' | 7 => '7' | 8 => '8' | 9 => '9'
  | 10 => 'a' | 11 => 'b' | 12 => 'c' | 13 => 'd' | 14 => 'e' | _ => 'f'

/-- Decimal digits of `n`, most significant first, computed with explicit
fuel so that the definition is structurally recursive (and hence reduces
inside the kernel).  Correct whenever `n < fuel`. -/
def natDecAux : Nat → Nat → List Char
  | 0, _ => []
  | fuel + 1, n =>
    if n < 10 then [digitChar n]
    else natDecAux fuel (n / 10) ++ [digitChar (n % 10)]

/-- Decimal rendering of a natural number, as Python renders it. -/
def natDec (n : Nat) : List Char := natDecAux (n + 1) n

/-- Decimal rendering of a Python integer. -/
def intReprL (n : Int) : List Char :=
  if n < 0 then '-' :: natDec n.natAbs else natDec n.toNat

/-- Four-digit lowercase hex escape `\uXXXX` of a code unit. -/
def uEsc (n : Nat) : List Char :=
  ['\\', 'u', hexDigit (n / 4096 % 16), hexDigit (n / 256 % 16),
   hexDigit (n / 16 % 16), hexDigit (n % 16)]

/-- Python `json.dumps` string escaping with the default `ensure_ascii=True`:
backslash, double quote and `\b \t \n \f \r` get two-character escapes,
all other characters outside the printable ASCII range `0x20..0x7e` get
`\uXXXX` escapes, astral characters as a UTF-16 surrogate pair. -/
def escapeChar (c : Char) : List Char :=
  if c = '"' then ['\\', '"']
  else if c = '\\' then ['\\', '\\']
  else if c = '\x08' then ['\\', 'b']
  else if c = '\x09' then ['\\', 't']
  else if c = '\x0a' then ['\\', 'n']
  else if c = '\x0c' then ['\\', 'f']
  else if c = '\x0d' then ['\\', 'r']
  else if c.toNat < 0x20 then uEsc c.toNat
  else if c.toNat ≤ 0x7e then [c]
  else if c.toNat ≤ 0xffff then uEsc c.toNat
  else uEsc (0xd800 + (c.toNat - 0x10000) / 0x400) ++
       uEsc (0xdc00 + (c.toNat - 0x10000) % 0x400)

/-- Escape every character of a string body. -/
def escList : List Char → List Char
  | [] => []
  | c :: cs => escapeChar c ++ escList cs

/-- JSON rendering of a string, i.e. the escaped body between quotes. -/
def encStrL (s : String) : List Char := '"' :: (escList s.data ++ ['"'])

/-- JSON rendering of a transaction value. -/
def encJVal : JVal → List Char
  | JVal.null => 'n' :: ['u', 'l', 'l']
  | JVal.bool true => 't' :: ['r', 'u', 'e']
  | JVal.bool false => 'f' :: ['a', 'l', 's', 'e']
  | JVal.int n => intReprL n
  | JVal.str s => encStrL s

/-- JSON rendering of one `"key": value` pair (default `': '` separator). -/
def encEntry (e : String × JVal) : List Char :=
  '"' :: (escList e.1.data ++ ('"' :: ':' :: ' ' :: encJVal e.2))

/-- JSON rendering of the comma-separated pairs of a dict body
(default `', '` item separator). -/
def encEntries : Tx → List Char
  | [] => []
  | [e] => encEntry e
  | e :: e2 :: es => encEntry e ++ (',' :: ' ' :: encEntries (e2 :: es))

/-- JSON rendering of a transaction dict. -/
def encTx (t : Tx) : List Char := '\x7b' :: (encEntries t ++ ['\x7d'])

/-- JSON rendering of the comma-separated elements of a transaction list. -/
def encTxItems : List Tx → List Char
  | [] => []
  | [t] => encTx t
  | t :: t2 :: ts => encTx t ++ (',' :: ' ' :: encTxItems (t2 :: ts))

/-- JSON rendering of a transaction list. -/
def encTxs (l : List Tx) : List Char := '[' :: (encTxItems l ++ [']'])

/-- Canonical JSON rendering of a block's hashed contents: exactly the
`json.dumps({...}, sort_keys=True)` string built in `Block.compute_hash`,
whose keys appear in the sorted order
`index, nonce, previous_hash, timestamp, transactions` with the default
`', '` / `': '` separators.  The stored `hash` field does not occur. -/
def blockChars (b : Block) : List Char :=
  '\x7b' :: '"' :: 'i' :: 'n' :: 'd' :: 'e' :: 'x' :: '"' :: ':' :: ' ' ::
    (intReprL b.index ++
  (',' :: ' ' :: '"' :: 'n' :: 'o' :: 'n' :: 'c' :: 'e' :: '"' :: ':' :: ' ' ::
    (intReprL b.nonce ++
  (',' :: ' ' :: '"' :: 'p' :: 'r' :: 'e' :: 'v' :: 'i' :: 'o' :: 'u' :: 's' ::
   '_' :: 'h' :: 'a' :: 's' :: 'h' :: '"' :: ':' :: ' ' ::
    (encStrL b.previous_hash ++
  (',' :: ' ' :: '"' :: 't' :: 'i' :: 'm' :: 'e' :: 's' :: 't' :: 'a' :: 'm' ::
   'p' :: '"' :: ':' :: ' ' ::
    (intReprL b.timestamp ++
  (',' :: ' ' :: '"' :: 't' :: 'r' :: 'a' :: 'n' :: 's' :: 'a' :: 'c' :: 't' ::
   'i' :: 'o' :: 'n' :: 's' :: '"' :: ':' :: ' ' ::
    (encTxs b.transactions ++ ['\x7d'])))))))))

/-- The `block_string` of `Block.compute_hash`, as a `String`. -/
def blockString (b : Block) : String := String.mk (blockChars b)

/-- `Block.compute_hash`: the SHA-256 hex digest of `blockString`.  The
digest function itself is the abstract parameter `H`. -/
def Block.compute_hash (H : String → String) (b : Block) : String :=
  H (blockString b)

/-- A serialized block record (`Block.to_dict` output / `Block.from_dict`
input): a JSON object in which any of the six fields may be absent. -/
structure BlockDict where
  index : Option Int
  timestamp : Option Int
  transactions : Option (List Tx)
  previous_hash : Option String
  nonce : Option Int
  hash : Option String
deriving DecidableEq

/-- `Block.to_dict`: serialize all six fields. -/
def Block.to_dict (b : Block) : BlockDict :=
  { index := some b.index, timestamp := some b.timestamp,
    transactions := some b.transactions, previous_hash := some b.previous_hash,
    nonce := some b.nonce, hash := some b.hash }

/-- `Block.from_dict`: `data["index"]` and `data["timestamp"]` are accessed
directly (a missing key raises `KeyError`, here `none`); the remaining
fields use `dict.get` defaults: `transactions → []`, `previous_hash → "0"`,
`nonce → 0`, `hash → ""`. -/
def Block.from_dict (data : BlockDict) : Option Block :=
  match data.index, data.timestamp with
  | some i, some ts =>
      some { index := i, timestamp := ts,
             transactions := data.transactions.getD [],
             previous_hash := data.previous_hash.getD "0",
             nonce := data.nonce.getD 0,
             hash := data.hash.getD "" }
  | _, _ => none

/-- Boolean list-level test that `p` is an initial segment of `s`. -/
def listStarts : List Char → List Char → Bool
  | _, [] => true
  | [], _ :: _ => false
  | c :: cs, p :: ps => if c = p then listStarts cs ps else false

/-- Python `s.startswith(p)`. -/
def str_starts (s p : String) : Bool := listStarts s.data p.data

/-- The difficulty target `"0" * difficulty`. -/
def zeros (d : Nat) : String := String.mk (List.replicate d '0')

/-- The ledger aggregate (`blockchain/blockchain.py`, class `Blockchain`):
a difficulty setting, the chain and the pending transaction pool.  The
`autosave` flag and `storage_path` only drive file I/O, which is modelled
at the data level (`save_chain` / `load_chain` below), so they do not
appear in the state. -/
structure Blockchain where
  difficulty : Nat
  chain : List Block
  pending_transactions : List Tx
deriving DecidableEq

/-- Body of `Blockchain.is_valid_chain` acting on the chain actually being
checked: genesis checks, then the indexed loop over positions `1..len-1`
(`checkRest` below starts with `prev = genesis`, `i = 1`). -/
def checkRest (H : String → String) (pre : String) (prev : Block) (i : Nat) :
    List Block → Bool
  | [] => true
  | current :: rest =>
    if current.index ≠ (i : Int) then false
    else if current.previous_hash ≠ prev.hash then false
    else if ¬ (str_starts (current.compute_hash H) pre = true) ∨
            current.hash ≠ current.compute_hash H then false
    else checkRest H pre current (i + 1) rest

/-- Validation of a given chain at difficulty `d`: empty chain invalid;
genesis must have index 0, previous hash `"0"`, a truthy (non-empty) hash
equal to its recomputed digest and meeting the difficulty target; every
later block is checked by `checkRest`. -/
def validChain (H : String → String) (d : Nat) : List Block → Bool
  | [] => false
  | genesis :: rest =>
    let pre := zeros d
    if genesis.index ≠ 0 ∨ genesis.previous_hash ≠ "0" then false
    else if genesis.hash = "" ∨ ¬ (str_starts genesis.hash pre = true) ∨
            genesis.hash ≠ genesis.compute_hash H then false
    else checkRest H pre genesis 1 rest

/-- `Blockchain.is_valid_chain(chain=None)`.  The source's first statement
is `chain = chain or self.chain`: both `None` and an explicitly supplied
empty list are falsy, so both fall back to the instance's own chain. -/
def Blockchain.is_valid_chain (H : String → String) (self : Blockchain)
    (chain : Option (List Block)) : Bool :=
  let c := match chain with
    | none => self.chain
    | some c => if c = [] then self.chain else c
  validChain H self.difficulty c

/-- The `while True` nonce search of `Blockchain.proof_of_work`, with fuel.
Each iteration assigns `block.nonce = nonce`, recomputes the digest and
stops when it meets the difficulty target, assigning `block.hash`. -/
def pow_loop (H : String → String) (d : Nat) (block : Block) (nonce : Nat) :
    Nat → Option Block
  | 0 => none
  | fuel + 1 =>
    let candidate := { block with nonce := (nonce : Int) }
    let block_hash := candidate.compute_hash H
    if str_starts block_hash (zeros d) then some { candidate with hash := block_hash }
    else pow_loop H d block (nonce + 1) fuel

/-- `Blockchain.proof_of_work`: search nonces starting from 0. -/
def Blockchain.proof_of_work (H : String → String) (self : Blockchain)
    (block : Block) (fuel : Nat) : Option Block :=
  pow_loop H self.difficulty block 0 fuel

/-- `Blockchain.create_genesis_block`: mine `Block(index=0, transactions=[],
previous_hash="0")` and append it to the chain.  `ts` stands for the
`time.time()` default timestamp. -/
def Blockchain.create_genesis_block (H : String → String) (self : Blockchain)
    (ts : Int) (fuel : Nat) : Option (Block × Blockchain) :=
  let genesis : Block := { index := 0, timestamp := ts, transactions := [],
                           previous_hash := "0", nonce := 0, hash := "" }
  match self.proof_of_work H genesis fuel with
  | none => none
  | some g => some (g, { self with chain := self.chain ++ [g] })

/-- A freshly constructed ledger when no stored state exists: `__init__`
fails to load and calls `create_genesis_block` on an empty chain. -/
def initBlockchain (H : String → String) (difficulty : Nat) (ts : Int)
    (fuel : Nat) : Option Blockchain :=
  let base : Blockchain := { difficulty := difficulty, chain := [],
                             pending_transactions := [] }
  (base.create_genesis_block H ts fuel).map (·.2)

/-- Python numeric test `isinstance(amount, (int, float))` restricted to the
modelled value universe: ints are numbers and so are bools (`bool` is a
subclass of `int` in Python). -/
def isNumber : JVal → Bool
  | .int _ => true
  | .bool _ => true
  | _ => false

/-- The numeric value used in the comparison `amount <= 0`
(`True == 1`, `False == 0`). -/
def numVal : JVal → Int
  | .int n => n
  | .bool b => if b then 1 else 0
  | _ => 0

/-- `utils.validate_transaction`: require keys `sender`, `recipient`,
`amount`; then require `amount` to be a positive number.  `ValueError`
becomes `Except.error`. -/
def validate_transaction (transaction : Tx) : Except String Unit :=
  match transaction.lookup "sender", transaction.lookup "recipient",
        transaction.lookup "amount" with
  | some _, some _, some amount =>
    if ¬ (isNumber amount = true) ∨ numVal amount ≤ 0 then
      Except.error "Transaction amount must be a positive number"
    else Except.ok ()
  | _, _, _ => Except.error "Transaction missing required fields"

/-- `Blockchain.add_transaction`: validate, then append to the pending
pool.  A raised `ValueError` leaves the state untouched (the raise happens
before any mutation). -/
def Blockchain.add_transaction (self : Blockchain) (transaction : Tx) :
    Blockchain × Except String Unit :=
  match validate_transaction transaction with
  | Except.error e => (self, Except.error e)
  | Except.ok _ =>
    ({ self with pending_transactions := self.pending_transactions ++ [transaction] },
     Except.ok ())

/-- Outcome of `Blockchain.mine_pending_transactions`: the `ValueError`
raised on an empty pool, the `IndexError` `self.chain[-1]` would raise on
an empty chain, fuel exhaustion of the unbounded search (model artifact),
or the mined block. -/
inductive MineResult where
  | valueError (msg : String) : MineResult
  | indexError : MineResult
  | fuelOut : MineResult
  | ok (b : Block) : MineResult
deriving DecidableEq

/-- `Blockchain.mine_pending_transactions`: refuse an empty pool, build a
candidate block at `index = len(chain)` on `previous_hash = chain[-1].hash`
holding a copy of the pending pool, mine it, append it and clear the
pool.  `ts` stands for the `time.time()` default timestamp. -/
def Blockchain.mine_pending_transactions (H : String → String)
    (self : Blockchain) (ts : Int) (fuel : Nat) : Blockchain × MineResult :=
  if self.pending_transactions = [] then
    (self, MineResult.valueError "No transactions to mine")
  else
    match self.chain.getLast? with
    | none => (self, MineResult.indexError)
    | some last =>
      let transactions_copy := self.pending_transactions
      let block : Block := { index := (self.chain.length : Int), timestamp := ts,
                             transactions := transactions_copy,
                             previous_hash := last.hash, nonce := 0, hash := "" }
      match self.proof_of_work H block fuel with
      | none => (self, MineResult.fuelOut)
      | some mined =>
        ({ self with chain := self.chain ++ [mined], pending_transactions := [] },
         MineResult.ok mined)

/-- The candidate scan of `Blockchain.resolve_conflicts`: deserialize each
raw chain (skipping any that raises), and adopt it as the running best
when it is strictly longer than the running maximum and valid.  The
accumulator is `(new_chain, max_length)`. -/
def resolve_loop (H : String → String) (self : Blockchain) :
    List (List BlockDict) → Option (List Block) × Nat → Option (List Block) × Nat
  | [], acc => acc
  | raw_chain :: rest, acc =>
    match raw_chain.mapM Block.from_dict with
    | none => resolve_loop H self rest acc
    | some chain_blocks =>
      if chain_blocks.length > acc.2 ∧ self.is_valid_chain H (some chain_blocks) = true
      then resolve_loop H self rest (some chain_blocks, chain_blocks.length)
      else resolve_loop H self rest acc

/-- `Blockchain.resolve_conflicts`: scan the neighbour chains starting from
`max_length = len(self.chain)`; afterwards `if new_chain:` (list truthiness)
decides whether the local chain is replaced. -/
def Blockchain.resolve_conflicts (H : String → String) (self : Blockchain)
    (neighbour_chains : List (List BlockDict)) : Blockchain × Bool :=
  match (resolve_loop H self neighbour_chains (none, self.chain.length)).1 with
  | some new_chain =>
    if new_chain ≠ [] then ({ self with chain := new_chain }, true)
    else (self, false)
  | none => (self, false)

/-- The JSON document persisted by `save_chain` / read by `load_chain`:
either the legacy format (a bare list of block records) or the current
two-key `\x7b"chain", "pending_transactions"\x7d` object. -/
inductive StoredData where
  | legacyList (blocks : List BlockDict) : StoredData
  | doc (chain : List BlockDict) (pending : List Tx) : StoredData
deriving DecidableEq

/-- `Blockchain.save_chain`: the document written to disk. -/
def Blockchain.save_chain (self : Blockchain) : StoredData :=
  StoredData.doc (self.chain.map Block.to_dict) self.pending_transactions

/-- `Blockchain.load_chain`: `none` input stands for a missing or
unreadable file (both return `False`); otherwise deserialize according to
the format (any `KeyError` in `Block.from_dict` is caught and returns
`False`), validate via `self.is_valid_chain(loaded_chain)` and only then
install the loaded chain and pool. -/
def Blockchain.load_chain (H : String → String) (self : Blockchain)
    (data : Option StoredData) : Blockchain × Bool :=
  match data with
  | none => (self, false)
  | some sd =>
    let parsed : Option (List Block × List Tx) :=
      match sd with
      | StoredData.legacyList bs => (bs.mapM Block.from_dict).map (fun c => (c, []))
      | StoredData.doc cbs pend => (cbs.mapM Block.from_dict).map (fun c => (c, pend))
    match parsed with
    | none => (self, false)
    | some (loaded, pending) =>
      if self.is_valid_chain H (some loaded) = true then
        ({ self with chain := loaded, pending_transactions := pending }, true)
      else (self, false)

/-- One successful core-mutating operation on a ledger: a validated
transaction admission, a successful mine, or a conflict-resolution call
(which never raises, whether or not it replaces the chain). -/
inductive Step (H : String → String) : Blockchain → Blockchain → Prop where
  | add (s : Blockchain) (t : Tx) (s' : Blockchain) :
      s.add_transaction t = (s', Except.ok ()) → Step H s s'
  | mine (s : Blockchain) (ts : Int) (fuel : Nat) (s' : Blockchain) (b : Block) :
      s.mine_pending_transactions H ts fuel = (s', MineResult.ok b) → Step H s s'
  | resolve (s : Blockchain) (cands : List (List BlockDict)) (s' : Blockchain) (r : Bool) :
      s.resolve_conflicts H cands = (s', r) → Step H s s'

example : blockString ({ index := 0, timestamp := 0,
                         transactions := [[("amount", JVal.int 10),
                                           ("recipient", JVal.str "Bob"),
                                           ("sender", JVal.str "Alice")]],
                         previous_hash := "0", nonce := 7,
                         hash := "irrelevant" } : Block) =
    "\x7b\"index\": 0, \"nonce\": 7, \"previous_hash\": \"0\", \"timestamp\": 0, \"transactions\": [\x7b\"amount\": 10, \"recipient\": \"Bob\", \"sender\": \"Alice\"\x7d]\x7d" := by
  decide

/-- Inverse of `hexDigit` on hexadecimal digit characters. -/
def unhex1 (c : Char) : Option Nat :=
  if c = '0' then some 0 else if c = '1' then some 1
  else if c = '2' then some 2 else if c = '3' then some 3
  else if c = '4' then some 4 else if c = '5' then some 5
  else if c = '6' then some 6 else if c = '7' then some 7
  else if c = '8' then some 8 else if c = '9' then some 9
  else if c = 'a' then some 10 else if c = 'b' then some 11
  else if c = 'c' then some 12 else if c = 'd' then some 13
  else if c = 'e' then some 14 else if c = 'f' then some 15
  else none

/-- Reassemble a code unit from four hex digit characters. -/
def unhex4 (a b c d : Char) : Option Nat :=
  match unhex1 a, unhex1 b, unhex1 c, unhex1 d with
  | some x, some y, some z, some w => some (4096 * x + 256 * y + 16 * z + w)
  | _, _, _, _ => none

theorem unhex1_hexDigit : ∀ k < 16, unhex1 (hexDigit k) = some k := by decide

theorem unhex4_uEsc (n : Nat) (h : n < 0x10000) :
    unhex4 (hexDigit (n / 4096 % 16)) (hexDigit (n / 256 % 16))
      (hexDigit (n / 16 % 16)) (hexDigit (n % 16)) = some n := by
  unfold unhex4
  rw [unhex1_hexDigit _ (by omega), unhex1_hexDigit _ (by omega),
      unhex1_hexDigit _ (by omega), unhex1_hexDigit _ (by omega)]
  simp only [Option.some.injEq]
  omega


/-- Decoding table for the two-character escapes. -/
def decSimple (e : Char) : Option Char :=
  if e = '"' then some '"'
  else if e = '\\' then some '\\'
  else if e = 'b' then some '\x08'
  else if e = 't' then some '\x09'
  else if e = 'n' then some '\x0a'
  else if e = 'f' then some '\x0c'
  else if e = 'r' then some '\x0d'
  else none

/-- Decode the continuation of a surrogate pair whose high unit was `n`. -/
def decPair (n : Nat) : List Char → Option (Char × List Char)
  | x :: y :: a2 :: b2 :: c2 :: d2 :: rest4 =>
    if x = '\\' ∧ y = 'u' then
      match unhex4 a2 b2 c2 d2 with
      | some m =>
        if 0xdc00 ≤ m ∧ m < 0xe000 then
          some (Char.ofNat (0x10000 + (n - 0xd800) * 0x400 + (m - 0xdc00)), rest4)
        else none
      | none => none
    else none
  | _ => none

/-- Decode a `\uXXXX` body (and a following low surrogate if needed). -/
def decU : List Char → Option (Char × List Char)
  | a :: b :: c :: d :: rest3 =>
    match unhex4 a b c d with
    | some n =>
      if 0xd800 ≤ n ∧ n < 0xdc00 then decPair n rest3
      else some (Char.ofNat n, rest3)
    | none => none
  | _ => none

/-- Decode what follows a backslash. -/
def decEsc : List Char → Option (Char × List Char)
  | [] => none
  | e :: rest2 =>
    if e = 'u' then decU rest2
    else (decSimple e).map (fun c => (c, rest2))

/-- Left inverse of `escapeChar` on one escaped character followed by
arbitrary residue. -/
def decChar : List Char → Option (Char × List Char)
  | [] => none
  | c :: rest => if c = '\\' then decEsc rest else some (c, rest)

theorem decChar_uEsc (n : Nat) (r : List Char)
    (hs : ¬ (0xd800 ≤ n ∧ n < 0xdc00)) (hn : n < 0x10000) :
    decChar (uEsc n ++ r) = some (Char.ofNat n, r) := by
  have h4 := unhex4_uEsc n hn
  simp only [uEsc, List.cons_append, List.nil_append, decChar, decEsc, decU]
  rw [h4]
  simp only [if_true, if_neg hs]

theorem decU_of_unhex (a b c d : Char) (n : Nat) (rest : List Char)
    (h : unhex4 a b c d = some n) (hns : ¬ (0xd800 ≤ n ∧ n < 0xdc00)) :
    decU (a :: b :: c :: d :: rest) = some (Char.ofNat n, rest) := by
  simp only [decU, h, if_neg hns]

theorem decU_of_unhex_high (a b c d : Char) (n : Nat) (rest : List Char)
    (h : unhex4 a b c d = some n) (hs : 0xd800 ≤ n ∧ n < 0xdc00) :
    decU (a :: b :: c :: d :: rest) = decPair n rest := by
  simp only [decU, h, if_pos hs]

theorem decPair_of_unhex (n : Nat) (a b c d : Char) (m : Nat) (rest : List Char)
    (h : unhex4 a b c d = some m) (hm : 0xdc00 ≤ m ∧ m < 0xe000) :
    decPair n ('\\' :: 'u' :: a :: b :: c :: d :: rest) =
      some (Char.ofNat (0x10000 + (n - 0xd800) * 0x400 + (m - 0xdc00)), rest) := by
  simp only [decPair, if_true, h, if_pos hm, and_self]

theorem decChar_surrogate (n : Nat) (r : List Char)
    (h1 : 0x10000 ≤ n) (h2 : n < 0x110000) :
    decChar (uEsc (0xd800 + (n - 0x10000) / 0x400) ++
             (uEsc (0xdc00 + (n - 0x10000) % 0x400) ++ r)) =
      some (Char.ofNat n, r) := by
  have hmod : (n - 0x10000) % 0x400 < 0x400 := Nat.mod_lt _ (by omega)
  have hdiv : (n - 0x10000) / 0x400 < 0x400 := by omega
  have h4a := unhex4_uEsc (0xd800 + (n - 0x10000) / 0x400) (by omega)
  have h4b := unhex4_uEsc (0xdc00 + (n - 0x10000) % 0x400) (by omega)
  simp only [uEsc, List.cons_append, List.nil_append, decChar, decEsc, if_true]
  rw [decU_of_unhex_high _ _ _ _ _ _ h4a (by omega)]
  rw [decPair_of_unhex _ _ _ _ _ _ _ h4b (by omega)]
  have harith : 0x10000 + (0xd800 + (n - 0x10000) / 0x400 - 0xd800) * 0x400 +
      (0xdc00 + (n - 0x10000) % 0x400 - 0xdc00) = n := by omega
  rw [harith]

theorem decChar_escapeChar (c : Char) (r : List Char) :
    decChar (escapeChar c ++ r) = some (c, r) := by
  by_cases h1 : c = '"'
  · subst h1; rfl
  by_cases h2 : c = '\\'
  · subst h2; rfl
  by_cases h3 : c = '\x08'
  · subst h3; rfl
  by_cases h4 : c = '\x09'
  · subst h4; rfl
  by_cases h5 : c = '\x0a'
  · subst h5; rfl
  by_cases h6 : c = '\x0c'
  · subst h6; rfl
  by_cases h7 : c = '\x0d'
  · subst h7; rfl
  by_cases h8 : c.toNat < 0x20
  · simp only [escapeChar, if_neg h1, if_neg h2, if_neg h3, if_neg h4, if_neg h5,
               if_neg h6, if_neg h7, if_pos h8]
    rw [decChar_uEsc c.toNat r (by omega) (by omega), Char.ofNat_toNat]
  by_cases h9 : c.toNat ≤ 0x7e
  · simp only [escapeChar, if_neg h1, if_neg h2, if_neg h3, if_neg h4, if_neg h5,
               if_neg h6, if_neg h7, if_neg h8, if_pos h9]
    simp only [List.cons_append, List.nil_append, decChar, if_neg h2]
  by_cases h10 : c.toNat ≤ 0xffff
  · have hv : c.toNat < 0xd800 ∨ (0xdfff < c.toNat ∧ c.toNat < 0x110000) := c.valid
    have hs : ¬ (0xd800 ≤ c.toNat ∧ c.toNat < 0xdc00) := by
      rcases hv with h | ⟨ha, hb⟩ <;> omega
    simp only [escapeChar, if_neg h1, if_neg h2, if_neg h3, if_neg h4, if_neg h5,
               if_neg h6, if_neg h7, if_neg h8, if_neg h9, if_pos h10]
    rw [decChar_uEsc c.toNat r hs (by omega), Char.ofNat_toNat]
  · have hv : c.toNat < 0xd800 ∨ (0xdfff < c.toNat ∧ c.toNat < 0x110000) := c.valid
    have hhi : c.toNat < 0x110000 := by rcases hv with h | ⟨ha, hb⟩ <;> omega
    simp only [escapeChar, if_neg h1, if_neg h2, if_neg h3, if_neg h4, if_neg h5,
               if_neg h6, if_neg h7, if_neg h8, if_neg h9, if_neg h10,
               List.append_assoc]
    rw [decChar_surrogate c.toNat r (by omega) hhi, Char.ofNat_toNat]

theorem escapeChar_det (c c' : Char) (r r' : List Char)
    (h : escapeChar c ++ r = escapeChar c' ++ r') : c = c' ∧ r = r' := by
  have ha := decChar_escapeChar c r
  have hb := decChar_escapeChar c' r'
  rw [h] at ha
  rw [ha] at hb
  simpa using hb

theorem escapeChar_ne_nil (c : Char) : escapeChar c ≠ [] := by
  intro h
  have hd := decChar_escapeChar c []
  rw [h] at hd
  simp [decChar] at hd

theorem escapeChar_head_ne_quote (c x : Char) (l : List Char)
    (h : escapeChar c = x :: l) : x ≠ '"' := by
  intro hx
  subst hx
  have hd := decChar_escapeChar c []
  rw [h] at hd
  simp only [decChar, List.cons_append, List.append_nil] at hd
  rw [if_neg (by decide : ¬ ('"' : Char) = '\\')] at hd
  simp only [Option.some.injEq, Prod.mk.injEq] at hd
  obtain ⟨hc, hl⟩ := hd
  rw [← hc, hl] at h
  rw [show escapeChar '"' = ['\\', '"'] from rfl] at h
  simp at h

theorem escList_det (l : List Char) : ∀ (l' r r' : List Char),
    escList l ++ ('"' :: r) = escList l' ++ ('"' :: r') → l = l' ∧ r = r' := by
  induction l with
  | nil =>
    intro l' r r' h
    cases l' with
    | nil => simpa using h
    | cons c' cs' =>
      exfalso
      simp only [escList, List.nil_append, List.append_assoc] at h
      rcases hne : escapeChar c' with _ | ⟨x, xs⟩
      · exact escapeChar_ne_nil c' hne
      · rw [hne] at h
        simp only [List.cons_append, List.cons.injEq] at h
        exact escapeChar_head_ne_quote c' x xs hne h.1.symm
  | cons c cs ih =>
    intro l' r r' h
    cases l' with
    | nil =>
      exfalso
      simp only [escList, List.nil_append, List.append_assoc] at h
      rcases hne : escapeChar c with _ | ⟨x, xs⟩
      · exact escapeChar_ne_nil c hne
      · rw [hne] at h
        simp only [List.cons_append, List.cons.injEq] at h
        exact escapeChar_head_ne_quote c x xs hne h.1
    | cons c' cs' =>
      simp only [escList, List.append_assoc] at h
      obtain ⟨hc, ht⟩ := escapeChar_det c c' _ _ h
      obtain ⟨hl, hr⟩ := ih cs' r r' ht
      exact ⟨by rw [hc, hl], hr⟩

/-- Decimal digit test on characters. -/
def isDig (c : Char) : Bool := decide (48 ≤ c.toNat ∧ c.toNat ≤ 57)

/-- The residue after a maximal digit run must not begin with a digit. -/
def headNotDig : List Char → Prop
  | [] => True
  | c :: _ => isDig c = false

theorem digitChar_isDig (k : Nat) : isDig (digitChar k) = true := by
  unfold digitChar
  split <;> decide

theorem digitChar_toNat : ∀ k < 10, (digitChar k).toNat = 48 + k := by decide

/-- Numeric value of a digit string. -/
def digsVal (l : List Char) : Nat := l.foldl (fun a c => a * 10 + (c.toNat - 48)) 0

theorem natDecAux_val : ∀ fuel n, n < fuel → digsVal (natDecAux fuel n) = n := by
  intro fuel
  induction fuel with
  | zero => intro n hn; omega
  | succ f ih =>
    intro n hn
    by_cases h10 : n < 10
    · simp only [natDecAux, if_pos h10, digsVal, List.foldl_cons, List.foldl_nil]
      rw [digitChar_toNat n h10]
      omega
    · have hdivlt : n / 10 < f := by omega
      simp only [natDecAux, if_neg h10, digsVal, List.foldl_append, List.foldl_cons,
                 List.foldl_nil]
      have hv := ih (n / 10) hdivlt
      simp only [digsVal] at hv
      rw [hv, digitChar_toNat (n % 10) (by omega)]
      omega

theorem natDec_val (n : Nat) : digsVal (natDec n) = n :=
  natDecAux_val (n + 1) n (Nat.lt_succ_self n)

theorem natDec_inj (a b : Nat) (h : natDec a = natDec b) : a = b := by
  have ha := natDec_val a
  rw [h, natDec_val b] at ha
  omega

theorem natDecAux_digits : ∀ fuel n c, c ∈ natDecAux fuel n → isDig c = true := by
  intro fuel
  induction fuel with
  | zero => intro n c hc; simp [natDecAux] at hc
  | succ f ih =>
    intro n c hc
    by_cases h10 : n < 10
    · simp only [natDecAux, if_pos h10, List.mem_singleton] at hc
      rw [hc]; exact digitChar_isDig n
    · simp only [natDecAux, if_neg h10, List.mem_append, List.mem_singleton] at hc
      rcases hc with hc | hc
      · exact ih (n / 10) c hc
      · rw [hc]; exact digitChar_isDig (n % 10)

theorem natDec_digits (n : Nat) (c : Char) (hc : c ∈ natDec n) : isDig c = true :=
  natDecAux_digits (n + 1) n c hc

theorem natDec_ne_nil (n : Nat) : natDec n ≠ [] := by
  unfold natDec natDecAux
  by_cases h10 : n < 10 <;> simp [h10]

theorem natDec_head (n : Nat) : ∃ d l, natDec n = d :: l ∧ isDig d = true := by
  rcases hne : natDec n with _ | ⟨d, l⟩
  · exact absurd hne (natDec_ne_nil n)
  · exact ⟨d, l, rfl, natDec_digits n d (by rw [hne]; exact List.mem_cons_self d l)⟩

theorem digitRun_det (a : List Char) : ∀ (b r r' : List Char),
    (∀ c ∈ a, isDig c = true) → (∀ c ∈ b, isDig c = true) →
    headNotDig r → headNotDig r' → a ++ r = b ++ r' → a = b ∧ r = r' := by
  induction a with
  | nil =>
    intro b r r' _ hb hr hr' h
    cases b with
    | nil => simpa using h
    | cons d bs =>
      exfalso
      rw [List.nil_append, List.cons_append] at h
      rw [h] at hr
      simp only [headNotDig] at hr
      rw [hb d (List.mem_cons_self d bs)] at hr
      simp at hr
  | cons d as ih =>
    intro b r r' ha hb hr hr' h
    cases b with
    | nil =>
      exfalso
      rw [List.nil_append, List.cons_append] at h
      rw [← h] at hr'
      simp only [headNotDig] at hr'
      rw [ha d (List.mem_cons_self d as)] at hr'
      simp at hr'
    | cons d' bs =>
      simp only [List.cons_append, List.cons.injEq] at h
      obtain ⟨hd, ht⟩ := h
      obtain ⟨h1, h2⟩ := ih bs r r' (fun c hc => ha c (List.mem_cons_of_mem d hc))
        (fun c hc => hb c (List.mem_cons_of_mem d' hc)) hr hr' ht
      exact ⟨by rw [hd, h1], h2⟩

theorem intReprL_head (n : Int) :
    ∃ d l, intReprL n = d :: l ∧ (d = '-' ∨ isDig d = true) := by
  unfold intReprL
  by_cases hn : n < 0
  · exact ⟨'-', natDec n.natAbs, by simp [hn], Or.inl rfl⟩
  · obtain ⟨d, l, hd, hdig⟩ := natDec_head n.toNat
    exact ⟨d, l, by simp [hn, hd], Or.inr hdig⟩

theorem intReprL_det (n m : Int) (r r' : List Char)
    (hr : headNotDig r) (hr' : headNotDig r')
    (h : intReprL n ++ r = intReprL m ++ r') : n = m ∧ r = r' := by
  unfold intReprL at h
  by_cases hn : n < 0 <;> by_cases hm : m < 0 <;>
    simp only [if_pos, if_neg, hn, hm, if_true, if_false, List.cons_append,
               List.cons.injEq] at h
  · obtain ⟨h1, h2⟩ := digitRun_det _ _ _ _ (fun c hc => natDec_digits _ c hc)
      (fun c hc => natDec_digits _ c hc) hr hr' h.2
    exact ⟨by have := natDec_inj _ _ h1; omega, h2⟩
  · exfalso
    obtain ⟨d, l, hd, hdig⟩ := natDec_head m.toNat
    rw [hd] at h
    simp only [List.cons_append, List.cons.injEq] at h
    rw [← h.1] at hdig
    exact absurd hdig (by decide)
  · exfalso
    obtain ⟨d, l, hd, hdig⟩ := natDec_head n.toNat
    rw [hd] at h
    simp only [List.cons_append, List.cons.injEq] at h
    rw [h.1] at hdig
    exact absurd hdig (by decide)
  · obtain ⟨h1, h2⟩ := digitRun_det _ _ _ _ (fun c hc => natDec_digits _ c hc)
      (fun c hc => natDec_digits _ c hc) hr hr' h
    exact ⟨by have := natDec_inj _ _ h1; omega, h2⟩

theorem clash_intReprL (x : Char) (hx1 : x ≠ '-') (hx2 : isDig x = false)
    (m : Int) (l1 l2 : List Char) (h : x :: l1 = intReprL m ++ l2) : False := by
  obtain ⟨d, l, hd, hdig⟩ := intReprL_head m
  rw [hd] at h
  simp only [List.cons_append, List.cons.injEq] at h
  rcases hdig with hd' | hd'
  · exact hx1 (h.1.trans hd')
  · rw [← h.1] at hd'
    rw [hx2] at hd'
    simp at hd'

theorem encJVal_det (v v' : JVal) (r r' : List Char)
    (hr : headNotDig r) (hr' : headNotDig r')
    (h : encJVal v ++ r = encJVal v' ++ r') : v = v' ∧ r = r' := by
  rcases v with _ | b | n | s <;> rcases v' with _ | b' | n' | s'
  · refine ⟨rfl, ?_⟩
    simpa [encJVal] using h
  · cases b' <;>
      (simp only [encJVal, List.cons_append, List.cons.injEq] at h;
       exact absurd h.1 (by decide))
  · exact absurd h (by
      simp only [encJVal, List.cons_append]
      intro hh
      exact clash_intReprL 'n' (by decide) (by decide) n' _ _ hh)
  · simp only [encJVal, encStrL, List.cons_append, List.cons.injEq] at h
    exact absurd h.1 (by decide)
  · cases b <;>
      (simp only [encJVal, List.cons_append, List.cons.injEq] at h;
       exact absurd h.1 (by decide))
  · cases b <;> cases b'
    · refine ⟨rfl, ?_⟩; simpa [encJVal] using h
    · simp only [encJVal, List.cons_append, List.cons.injEq] at h
      exact absurd h.1 (by decide)
    · simp only [encJVal, List.cons_append, List.cons.injEq] at h
      exact absurd h.1 (by decide)
    · refine ⟨rfl, ?_⟩; simpa [encJVal] using h
  · cases b <;> exact absurd h (by
      simp only [encJVal, List.cons_append]
      intro hh
      first
        | exact clash_intReprL 't' (by decide) (by decide) n' _ _ hh
        | exact clash_intReprL 'f' (by decide) (by decide) n' _ _ hh)
  · cases b <;>
      (simp only [encJVal, encStrL, List.cons_append, List.cons.injEq] at h;
       exact absurd h.1 (by decide))
  · exact absurd h.symm (by
      simp only [encJVal, List.cons_append]
      intro hh
      exact clash_intReprL 'n' (by decide) (by decide) n _ _ hh)
  · cases b' <;> exact absurd h.symm (by
      simp only [encJVal, List.cons_append]
      intro hh
      first
        | exact clash_intReprL 't' (by decide) (by decide) n _ _ hh
        | exact clash_intReprL 'f' (by decide) (by decide) n _ _ hh)
  · simp only [encJVal] at h
    obtain ⟨h1, h2⟩ := intReprL_det n n' r r' hr hr' h
    exact ⟨by rw [h1], h2⟩
  · exact absurd h.symm (by
      simp only [encJVal, encStrL, List.cons_append]
      intro hh
      exact clash_intReprL '"' (by decide) (by decide) n _ _ hh)
  · simp only [encJVal, encStrL, List.cons_append, List.cons.injEq] at h
    exact absurd h.1 (by decide)
  · cases b' <;>
      (simp only [encJVal, encStrL, List.cons_append, List.cons.injEq] at h;
       exact absurd h.1 (by decide))
  · exact absurd h (by
      simp only [encJVal, encStrL, List.cons_append]
      intro hh
      exact clash_intReprL '"' (by decide) (by decide) n' _ _ hh)
  · simp only [encJVal, encStrL, List.cons_append, List.append_assoc,
               List.singleton_append, List.cons.injEq, true_and] at h
    obtain ⟨hdata, hrr⟩ := escList_det s.data s'.data r r' h
    refine ⟨?_, hrr⟩
    cases s; cases s'
    simp only [JVal.str.injEq]
    exact congrArg String.mk hdata

theorem headNotDig_cons (c : Char) (l : List Char) (h : isDig c = false) :
    headNotDig (c :: l) := h

theorem encEntry_det (e e' : String × JVal) (r r' : List Char)
    (hr : headNotDig r) (hr' : headNotDig r')
    (h : encEntry e ++ r = encEntry e' ++ r') : e = e' ∧ r = r' := by
  obtain ⟨k, v⟩ := e
  obtain ⟨k', v'⟩ := e'
  simp only [encEntry, List.cons_append, List.append_assoc, List.cons.injEq,
             true_and] at h
  obtain ⟨hk, htail⟩ := escList_det k.data k'.data _ _ h
  simp only [List.cons.injEq, true_and] at htail
  obtain ⟨hv, hrr⟩ := encJVal_det v v' r r' hr hr' htail
  refine ⟨?_, hrr⟩
  have hkk : k = k' := by
    cases k; cases k'
    exact congrArg String.mk hk
  rw [hkk, hv]

theorem encEntries_cons_head (e : String × JVal) (es : Tx) :
    ∃ l, encEntries (e :: es) = '"' :: l := by
  cases es with
  | nil => exact ⟨_, rfl⟩
  | cons e2 es2 => exact ⟨_, rfl⟩

theorem encEntries_det (t : Tx) : ∀ (t' : Tx) (r r' : List Char),
    encEntries t ++ ('\x7d' :: r) = encEntries t' ++ ('\x7d' :: r') →
    t = t' ∧ r = r' := by
  induction t with
  | nil =>
    intro t' r r' h
    cases t' with
    | nil => simpa [encEntries] using h
    | cons e' es' =>
      exfalso
      obtain ⟨l, hl⟩ := encEntries_cons_head e' es'
      rw [hl] at h
      simp only [encEntries, List.nil_append, List.cons_append, List.cons.injEq] at h
      exact absurd h.1 (by decide)
  | cons e es ih =>
    intro t' r r' h
    cases t' with
    | nil =>
      exfalso
      obtain ⟨l, hl⟩ := encEntries_cons_head e es
      rw [hl] at h
      simp only [encEntries, List.nil_append, List.cons_append, List.cons.injEq] at h
      exact absurd h.1 (by decide)
    | cons e' es' =>
      cases es with
      | nil =>
        cases es' with
        | nil =>
          simp only [encEntries] at h
          obtain ⟨he, htail⟩ := encEntry_det e e' _ _ (headNotDig_cons _ _ (by decide)) (headNotDig_cons _ _ (by decide)) h
          simp only [List.cons.injEq, true_and] at htail
          exact ⟨by rw [he], htail⟩
        | cons e2' es2' =>
          exfalso
          simp only [encEntries, List.append_assoc, List.cons_append] at h
          obtain ⟨he, htail⟩ := encEntry_det e e' _ _ (headNotDig_cons _ _ (by decide)) (headNotDig_cons _ _ (by decide)) h
          simp only [List.cons.injEq] at htail
          exact absurd htail.1 (by decide)
      | cons e2 es2 =>
        cases es' with
        | nil =>
          exfalso
          simp only [encEntries, List.append_assoc, List.cons_append] at h
          obtain ⟨he, htail⟩ := encEntry_det e e' _ _ (headNotDig_cons _ _ (by decide)) (headNotDig_cons _ _ (by decide)) h
          simp only [List.cons.injEq] at htail
          exact absurd htail.1 (by decide)
        | cons e2' es2' =>
          simp only [encEntries, List.append_assoc, List.cons_append] at h
          obtain ⟨he, htail⟩ := encEntry_det e e' _ _ (headNotDig_cons _ _ (by decide)) (headNotDig_cons _ _ (by decide)) h
          simp only [List.cons.injEq, true_and] at htail
          obtain ⟨hes, hrr⟩ := ih (e2' :: es2') r r' htail
          exact ⟨by rw [he, hes], hrr⟩

theorem encTx_det (t t' : Tx) (r r' : List Char)
    (h : encTx t ++ r = encTx t' ++ r') : t = t' ∧ r = r' := by
  simp only [encTx, List.cons_append, List.append_assoc, List.singleton_append,
             List.cons.injEq, true_and] at h
  exact encEntries_det t t' r r' h

theorem encTxItems_det (l : List Tx) : ∀ (l' : List Tx) (r r' : List Char),
    encTxItems l ++ (']' :: r) = encTxItems l' ++ (']' :: r') →
    l = l' ∧ r = r' := by
  induction l with
  | nil =>
    intro l' r r' h
    cases l' with
    | nil => simpa [encTxItems] using h
    | cons t' ts' =>
      exfalso
      cases ts' with
      | nil =>
        simp only [encTxItems, encTx, List.nil_append, List.cons_append,
                   List.cons.injEq] at h
        exact absurd h.1 (by decide)
      | cons t2' ts2' =>
        simp only [encTxItems, encTx, List.nil_append, List.cons_append,
                   List.cons.injEq] at h
        exact absurd h.1 (by decide)
  | cons t ts ih =>
    intro l' r r' h
    cases l' with
    | nil =>
      exfalso
      cases ts with
      | nil =>
        simp only [encTxItems, encTx, List.nil_append, List.cons_append,
                   List.cons.injEq] at h
        exact absurd h.1 (by decide)
      | cons t2 ts2 =>
        simp only [encTxItems, encTx, List.nil_append, List.cons_append,
                   List.cons.injEq] at h
        exact absurd h.1 (by decide)
    | cons t' ts' =>
      cases ts with
      | nil =>
        cases ts' with
        | nil =>
          simp only [encTxItems] at h
          obtain ⟨ht, htail⟩ := encTx_det t t' _ _ h
          simp only [List.cons.injEq, true_and] at htail
          exact ⟨by rw [ht], htail⟩
        | cons t2' ts2' =>
          exfalso
          simp only [encTxItems, List.append_assoc, List.cons_append] at h
          obtain ⟨ht, htail⟩ := encTx_det t t' _ _ h
          simp only [List.cons.injEq] at htail
          exact absurd htail.1 (by decide)
      | cons t2 ts2 =>
        cases ts' with
        | nil =>
          exfalso
          simp only [encTxItems, List.append_assoc, List.cons_append] at h
          obtain ⟨ht, htail⟩ := encTx_det t t' _ _ h
          simp only [List.cons.injEq] at htail
          exact absurd htail.1 (by decide)
        | cons t2' ts2' =>
          simp only [encTxItems, List.append_assoc, List.cons_append] at h
          obtain ⟨ht, htail⟩ := encTx_det t t' _ _ h
          simp only [List.cons.injEq, true_and] at htail
          obtain ⟨hts, hrr⟩ := ih (t2' :: ts2') r r' htail
          exact ⟨by rw [ht, hts], hrr⟩

theorem encTxs_det (l l' : List Tx) (r r' : List Char)
    (h : encTxs l ++ r = encTxs l' ++ r') : l = l' ∧ r = r' := by
  simp only [encTxs, List.cons_append, List.append_assoc, List.singleton_append,
             List.cons.injEq, true_and] at h
  exact encTxItems_det l l' r r' h

theorem str_data_inj (s t : String) (h : s.data = t.data) : s = t := by
  cases s
  cases t
  exact congrArg String.mk h

theorem blockChars_inj (b b' : Block) (h : blockChars b = blockChars b') :
    b.index = b'.index ∧ b.nonce = b'.nonce ∧
    b.previous_hash = b'.previous_hash ∧ b.timestamp = b'.timestamp ∧
    b.transactions = b'.transactions := by
  simp only [blockChars, List.cons.injEq, true_and] at h
  obtain ⟨h1, h⟩ := intReprL_det _ _ _ _ (headNotDig_cons _ _ (by decide))
    (headNotDig_cons _ _ (by decide)) h
  simp only [List.cons.injEq, true_and] at h
  obtain ⟨h2, h⟩ := intReprL_det _ _ _ _ (headNotDig_cons _ _ (by decide))
    (headNotDig_cons _ _ (by decide)) h
  simp only [List.cons.injEq, true_and, encStrL, List.cons_append,
             List.append_assoc, List.singleton_append, List.nil_append] at h
  obtain ⟨h3, h⟩ := escList_det _ _ _ _ h
  simp only [List.cons.injEq, true_and, List.nil_append] at h
  obtain ⟨h4, h⟩ := intReprL_det _ _ _ _ (headNotDig_cons _ _ (by decide))
    (headNotDig_cons _ _ (by decide)) h
  simp only [List.cons.injEq, true_and] at h
  obtain ⟨h5, _⟩ := encTxs_det _ _ _ _ h
  exact ⟨h1, h2, str_data_inj _ _ h3, h4, h5⟩

/-- With an injective digest function, equal digests force equal hashed
contents (all five hashed fields). -/
theorem compute_hash_inj (H : String → String) (hH : Function.Injective H)
    (b b' : Block) (h : b.compute_hash H = b'.compute_hash H) :
    b.index = b'.index ∧ b.nonce = b'.nonce ∧
    b.previous_hash = b'.previous_hash ∧ b.timestamp = b'.timestamp ∧
    b.transactions = b'.transactions := by
  have hb : blockString b = blockString b' := hH h
  have hc : blockChars b = blockChars b' := by
    have hd := congrArg String.data hb
    simpa [blockString] using hd
  exact blockChars_inj b b' hc

theorem checkRest_iff (H : String → String) (pre : String) :
    ∀ (bs : List Block) (prev : Block) (i : Nat),
    checkRest H pre prev i bs = true ↔
      ∀ j (hj : j < bs.length),
        (bs.get ⟨j, hj⟩).index = ((i + j : Nat) : Int) ∧
        (bs.get ⟨j, hj⟩).previous_hash =
          ((prev :: bs).get ⟨j, Nat.lt_succ_of_lt hj⟩).hash ∧
        str_starts ((bs.get ⟨j, hj⟩).compute_hash H) pre = true ∧
        (bs.get ⟨j, hj⟩).hash = (bs.get ⟨j, hj⟩).compute_hash H := by
  intro bs
  induction bs with
  | nil =>
    intro prev i
    simp [checkRest]
  | cons b bs ih =>
    intro prev i
    constructor
    · intro h
      unfold checkRest at h
      by_cases h1 : b.index ≠ (i : Int)
      · rw [if_pos h1] at h; simp at h
      rw [if_neg h1] at h
      by_cases h2 : b.previous_hash ≠ prev.hash
      · rw [if_pos h2] at h; simp at h
      rw [if_neg h2] at h
      by_cases h3 : ¬ (str_starts (b.compute_hash H) pre = true) ∨
          b.hash ≠ b.compute_hash H
      · rw [if_pos h3] at h; simp at h
      rw [if_neg h3] at h
      push_neg at h1 h2 h3
      intro j hj
      cases j with
      | zero =>
        simp only [List.get_eq_getElem, List.getElem_cons_zero]
        exact ⟨by simpa using h1, by simpa using h2, h3.1, h3.2⟩
      | succ j' =>
        have hj' : j' < bs.length := by simpa using hj
        have hrec := (ih b (i + 1)).mp h j' hj'
        simp only [List.get_eq_getElem, List.getElem_cons_succ] at hrec ⊢
        have harr : i + (j' + 1) = (i + 1) + j' := by omega
        rw [harr]
        exact hrec
    · intro hAll
      have h0 := hAll 0 (Nat.succ_pos _)
      simp only [List.get_eq_getElem, List.getElem_cons_zero] at h0
      unfold checkRest
      rw [if_neg (by simpa using h0.1)]
      rw [if_neg (by simpa using h0.2.1)]
      rw [if_neg (by push_neg; exact ⟨h0.2.2.1, h0.2.2.2⟩)]
      apply (ih b (i + 1)).mpr
      intro j' hj'
      have hrec := hAll (j' + 1) (by simpa using hj')
      simp only [List.get_eq_getElem, List.getElem_cons_succ] at hrec ⊢
      have harr : (i + 1) + j' = i + (j' + 1) := by omega
      rw [harr]
      exact hrec

theorem validChain_cons_iff (H : String → String) (d : Nat) (g : Block)
    (rest : List Block) :
    validChain H d (g :: rest) = true ↔
      (g.index = 0 ∧ g.previous_hash = "0" ∧ g.hash ≠ "" ∧
       str_starts g.hash (zeros d) = true ∧ g.hash = g.compute_hash H) ∧
      checkRest H (zeros d) g 1 rest = true := by
  simp only [validChain]
  by_cases h1 : g.index ≠ 0 ∨ g.previous_hash ≠ "0"
  · rw [if_pos h1]
    constructor
    · intro hF; simp at hF
    · rintro ⟨⟨a1, a2, _⟩, _⟩
      rcases h1 with h | h
      · exact absurd a1 h
      · exact absurd a2 h
  · rw [if_neg h1]
    push_neg at h1
    by_cases h2 : g.hash = "" ∨ ¬ (str_starts g.hash (zeros d) = true) ∨
        g.hash ≠ g.compute_hash H
    · rw [if_pos h2]
      constructor
      · intro hF; simp at hF
      · rintro ⟨⟨_, _, a3, a4, a5⟩, _⟩
        rcases h2 with h | h | h
        · exact absurd h a3
        · exact absurd a4 h
        · exact absurd a5 h
    · rw [if_neg h2]
      push_neg at h2
      constructor
      · intro h
        exact ⟨⟨h1.1, h1.2, h2.1, h2.2.1, h2.2.2⟩, h⟩
      · intro h
        exact h.2

/-- Positionwise consequences of `validChain`: every block carries its
position as `index`, links to its predecessor (sentinel `"0"` for the
genesis block), stores its own recomputed digest, and that digest meets
the difficulty target; the genesis hash is non-empty. -/
theorem validChain_conds_at (H : String → String) (d : Nat)
    (chain : List Block) (hv : validChain H d chain = true)
    (i : Nat) (hi : i < chain.length) :
    (chain.get ⟨i, hi⟩).index = (i : Int) ∧
    (i = 0 → (chain.get ⟨i, hi⟩).previous_hash = "0") ∧
    (∀ _ : 0 < i, (chain.get ⟨i, hi⟩).previous_hash =
      (chain.get ⟨i - 1, by omega⟩).hash) ∧
    (chain.get ⟨i, hi⟩).hash = (chain.get ⟨i, hi⟩).compute_hash H ∧
    str_starts ((chain.get ⟨i, hi⟩).compute_hash H) (zeros d) = true ∧
    (i = 0 → (chain.get ⟨i, hi⟩).hash ≠ "") := by
  cases chain with
  | nil => simp at hi
  | cons g rest =>
    obtain ⟨⟨hg1, hg2, hg3, hg4, hg5⟩, hrest⟩ := (validChain_cons_iff H d g rest).mp hv
    cases i with
    | zero =>
      simp only [List.get_eq_getElem, List.getElem_cons_zero]
      refine ⟨by simpa using hg1, fun _ => hg2, by omega, hg5, ?_, fun _ => hg3⟩
      rw [← hg5]
      exact hg4
    | succ j =>
      have hj : j < rest.length := by simpa using hi
      have hrec := (checkRest_iff H (zeros d) rest g 1).mp hrest j hj
      simp only [List.get_eq_getElem, List.getElem_cons_succ] at hrec ⊢
      obtain ⟨hc1, hc2, hc3, hc4⟩ := hrec
      refine ⟨?_, by omega, ?_, hc4, hc3, by omega⟩
      · rw [hc1]
        push_cast
        omega
      · intro _
        simpa using hc2

/-- A single-field overwrite of a block record, the tampering considered in
the spec's immutability property. -/
inductive FieldMutation where
  | setIndex (v : Int) : FieldMutation
  | setTimestamp (v : Int) : FieldMutation
  | setTransactions (v : List Tx) : FieldMutation
  | setPreviousHash (v : String) : FieldMutation
  | setNonce (v : Int) : FieldMutation
  | setHash (v : String) : FieldMutation

/-- Apply a single-field overwrite to a block. -/
def applyMutation : FieldMutation → Block → Block
  | .setIndex v, b => { b with index := v }
  | .setTimestamp v, b => { b with timestamp := v }
  | .setTransactions v, b => { b with transactions := v }
  | .setPreviousHash v, b => { b with previous_hash := v }
  | .setNonce v, b => { b with nonce := v }
  | .setHash v, b => { b with hash := v }

theorem same_digest_fields (H : String → String) (hH : Function.Injective H)
    (b b' : Block) (hhash : b'.hash = b.hash)
    (h1 : b.hash = b.compute_hash H) (h2 : b'.hash = b'.compute_hash H) :
    b.index = b'.index ∧ b.nonce = b'.nonce ∧
    b.previous_hash = b'.previous_hash ∧ b.timestamp = b'.timestamp ∧
    b.transactions = b'.transactions := by
  apply compute_hash_inj H hH
  rw [← h1, ← h2]
  exact hhash.symm

/-- Core tamper-evidence lemma: overwriting any single field of any block
of a valid chain with a different value falsifies `validChain`, assuming
the digest function is injective (ideal hash). -/
theorem mutation_invalidates (H : String → String) (hH : Function.Injective H)
    (d : Nat) (chain : List Block) (hv : validChain H d chain = true)
    (i : Nat) (hi : i < chain.length) (m : FieldMutation)
    (hne : applyMutation m (chain.get ⟨i, hi⟩) ≠ chain.get ⟨i, hi⟩) :
    validChain H d (chain.set i (applyMutation m (chain.get ⟨i, hi⟩))) = false := by
  by_contra hcon
  have ht : validChain H d (chain.set i (applyMutation m (chain.get ⟨i, hi⟩))) = true := by
    revert hcon
    cases validChain H d (chain.set i (applyMutation m (chain.get ⟨i, hi⟩))) <;> simp
  have hlen : i < (chain.set i (applyMutation m (chain.get ⟨i, hi⟩))).length := by
    simpa using hi
  have condsM := validChain_conds_at H d _ ht i hlen
  have condsO := validChain_conds_at H d chain hv i hi
  have hgetM : (chain.set i (applyMutation m (chain.get ⟨i, hi⟩))).get ⟨i, hlen⟩ =
      applyMutation m (chain.get ⟨i, hi⟩) := by
    simp [List.get_eq_getElem, List.getElem_set]
  rw [hgetM] at condsM
  obtain ⟨hO1, hO2, hO3, hO4, hO5, hO6⟩ := condsO
  obtain ⟨hM1, hM2, hM3, hM4, hM5, hM6⟩ := condsM
  rcases m with v | v | v | v | v | v
  · -- index overwritten
    have hvne : v ≠ (chain.get ⟨i, hi⟩).index := by
      intro he
      exact hne (by simp only [applyMutation]; rw [he])
    simp only [applyMutation] at hM1
    exact hvne (hM1.trans hO1.symm)
  · -- timestamp overwritten: same stored digest over changed hashed contents
    have hvne : v ≠ (chain.get ⟨i, hi⟩).timestamp := by
      intro he
      exact hne (by simp only [applyMutation]; rw [he])
    simp only [applyMutation] at hM4
    have hfields := same_digest_fields H hH (chain.get ⟨i, hi⟩)
      { chain.get ⟨i, hi⟩ with timestamp := v } rfl hO4 hM4
    exact hvne hfields.2.2.2.1.symm
  · -- transactions overwritten
    have hvne : v ≠ (chain.get ⟨i, hi⟩).transactions := by
      intro he
      exact hne (by simp only [applyMutation]; rw [he])
    simp only [applyMutation] at hM4
    have hfields := same_digest_fields H hH (chain.get ⟨i, hi⟩)
      { chain.get ⟨i, hi⟩ with transactions := v } rfl hO4 hM4
    exact hvne hfields.2.2.2.2.symm
  · -- previous_hash overwritten
    have hvne : v ≠ (chain.get ⟨i, hi⟩).previous_hash := by
      intro he
      exact hne (by simp only [applyMutation]; rw [he])
    rcases Nat.eq_zero_or_pos i with hz | hp
    · subst hz
      simp only [applyMutation] at hM2
      exact hvne ((hM2 (by trivial)).trans (hO2 rfl).symm)
    · have hM3' := hM3 hp
      simp only [applyMutation] at hM3'
      have hgetP : ((chain.set i ({ chain.get ⟨i, hi⟩ with previous_hash := v } : Block)).get
          ⟨i - 1, by simp; omega⟩) = chain.get ⟨i - 1, by omega⟩ := by
        simp only [List.get_eq_getElem, List.getElem_set]
        rw [if_neg (by omega : ¬ i = i - 1)]
      rw [hgetP] at hM3'
      exact hvne (hM3'.trans (hO3 hp).symm)
  · -- nonce overwritten
    have hvne : v ≠ (chain.get ⟨i, hi⟩).nonce := by
      intro he
      exact hne (by simp only [applyMutation]; rw [he])
    simp only [applyMutation] at hM4
    have hfields := same_digest_fields H hH (chain.get ⟨i, hi⟩)
      { chain.get ⟨i, hi⟩ with nonce := v } rfl hO4 hM4
    exact hvne hfields.2.1.symm
  · -- stored hash overwritten
    have hvne : v ≠ (chain.get ⟨i, hi⟩).hash := by
      intro he
      exact hne (by simp only [applyMutation]; rw [he])
    simp only [applyMutation] at hM4
    exact hvne (hM4.trans hO4.symm)

theorem pow_loop_sound (H : String → String) (d : Nat) (block : Block) :
    ∀ (fuel nonce : Nat) (mined : Block),
    pow_loop H d block nonce fuel = some mined →
    ∃ n : Nat, nonce ≤ n ∧
      mined = { block with
                nonce := (n : Int),
                hash := Block.compute_hash H { block with nonce := (n : Int) } } ∧
      str_starts (Block.compute_hash H { block with nonce := (n : Int) })
        (zeros d) = true ∧
      ∀ k : Nat, nonce ≤ k → k < n →
        str_starts (Block.compute_hash H { block with nonce := (k : Int) })
          (zeros d) = false := by
  intro fuel
  induction fuel with
  | zero => intro nonce mined h; simp [pow_loop] at h
  | succ f ih =>
    intro nonce mined h
    simp only [pow_loop] at h
    by_cases hs : str_starts
        (Block.compute_hash H { block with nonce := (nonce : Int) }) (zeros d) = true
    · rw [if_pos hs] at h
      refine ⟨nonce, le_rfl, ?_, hs, fun k hk1 hk2 => by omega⟩
      simpa using h.symm
    · rw [if_neg hs] at h
      obtain ⟨n, hn1, hn2, hn3, hn4⟩ := ih (nonce + 1) mined h
      refine ⟨n, by omega, hn2, hn3, fun k hk1 hk2 => ?_⟩
      by_cases hkn : k = nonce
      · subst hkn
        simpa using hs
      · exact hn4 k (by omega) hk2

theorem pow_loop_complete (H : String → String) (d : Nat) (block : Block) :
    ∀ (fuel start N : Nat), start ≤ N → N < start + fuel →
    str_starts (Block.compute_hash H { block with nonce := (N : Int) })
      (zeros d) = true →
    (∀ k : Nat, start ≤ k → k < N →
      str_starts (Block.compute_hash H { block with nonce := (k : Int) })
        (zeros d) = false) →
    pow_loop H d block start fuel =
      some { block with
             nonce := (N : Int),
             hash := Block.compute_hash H { block with nonce := (N : Int) } } := by
  intro fuel
  induction fuel with
  | zero => intro start N h1 h2 _ _; omega
  | succ f ih =>
    intro start N hsN hlt hhit hmin
    simp only [pow_loop]
    by_cases heq : start = N
    · subst heq
      rw [if_pos hhit]
    · have hslt : start < N := by omega
      have hmiss := hmin start le_rfl hslt
      rw [if_neg (by simp [hmiss])]
      exact ih (start + 1) N (by omega) (by omega) hhit
        (fun k hk1 hk2 => hmin k (by omega) hk2)

theorem pow_loop_initial (H : String → String) (d : Nat) (b : Block)
    (n0 : Int) (h0 : String) :
    ∀ (fuel nonce : Nat),
    pow_loop H d { b with nonce := n0, hash := h0 } nonce fuel =
      pow_loop H d b nonce fuel := by
  intro fuel
  induction fuel with
  | zero => intro nonce; rfl
  | succ f ih =>
    intro nonce
    simp only [pow_loop]
    rw [ih (nonce + 1)]
    rw [show Block.compute_hash H { b with nonce := (nonce : Int), hash := h0 } =
        Block.compute_hash H { b with nonce := (nonce : Int) } from rfl]

theorem getLast?_get : ∀ (l : List Block) (k : Nat) (_ : k + 1 = l.length),
    l.getLast? = some (l.get ⟨k, by omega⟩) := by
  intro l
  induction l with
  | nil => intro k hk; simp at hk
  | cons x t ih =>
    intro k hk
    cases t with
    | nil =>
      have hk0 : k = 0 := by simpa using hk
      subst hk0
      rfl
    | cons y t2 =>
      have hkpos : 0 < k := by
        simp only [List.length_cons] at hk
        omega
      obtain ⟨k', rfl⟩ : ∃ k', k = k' + 1 := ⟨k - 1, by omega⟩
      rw [List.getLast?_cons_cons]
      rw [ih k' (by simp only [List.length_cons] at hk ⊢; omega)]
      simp [List.get_eq_getElem]

theorem validChain_snoc (H : String → String) (d : Nat) (c : List Block)
    (b : Block) (hv : validChain H d c = true)
    (hidx : b.index = (c.length : Int))
    (last : Block) (hlast : c.getLast? = some last)
    (hprev : b.previous_hash = last.hash)
    (hhash : b.hash = b.compute_hash H)
    (hstarts : str_starts (b.compute_hash H) (zeros d) = true) :
    validChain H d (c ++ [b]) = true := by
  cases c with
  | nil => simp [validChain] at hv
  | cons g rest =>
    rw [List.cons_append]
    rw [validChain_cons_iff] at hv ⊢
    obtain ⟨hgen, hrest⟩ := hv
    refine ⟨hgen, ?_⟩
    rw [checkRest_iff] at hrest ⊢
    intro j hj
    have hjlen : j < rest.length + 1 := by simpa using hj
    by_cases hcase : j < rest.length
    · have hold := hrest j hcase
      have e1 : (rest ++ [b]).get ⟨j, hj⟩ = rest.get ⟨j, hcase⟩ := by
        simp only [List.get_eq_getElem]
        exact List.getElem_append_left hcase
      have e2 : ((g :: (rest ++ [b])).get ⟨j, Nat.lt_succ_of_lt hj⟩) =
          ((g :: rest).get ⟨j, Nat.lt_succ_of_lt hcase⟩) := by
        show (((g :: rest) ++ [b]).get ⟨j, by simp; omega⟩) =
          ((g :: rest).get ⟨j, Nat.lt_succ_of_lt hcase⟩)
        simp only [List.get_eq_getElem]
        exact List.getElem_append_left (by simpa using Nat.lt_succ_of_lt hcase)
      rw [e1, e2]
      exact hold
    · have hjeq : j = rest.length := by omega
      subst hjeq
      have e1 : (rest ++ [b]).get ⟨rest.length, hj⟩ = b := by
        simp [List.get_eq_getElem]
      have e2 : ((g :: (rest ++ [b])).get
          ⟨rest.length, Nat.lt_succ_of_lt hj⟩) = last := by
        show (((g :: rest) ++ [b]).get ⟨rest.length, by simp; omega⟩) = last
        have e3 : (((g :: rest) ++ [b]).get ⟨rest.length, by simp; omega⟩) =
            ((g :: rest).get ⟨rest.length, by simp⟩) := by
          simp only [List.get_eq_getElem]
          exact List.getElem_append_left (by simp)
        rw [e3]
        have e4 := getLast?_get (g :: rest) rest.length (by simp)
        rw [hlast] at e4
        exact (Option.some.injEq _ _).mp e4.symm
      rw [e1, e2]
      refine ⟨?_, hprev, hstarts, hhash⟩
      rw [hidx]
      simp only [List.length_cons]
      push_cast
      omega

/-- The candidates that qualify for adoption per the spec: they
deserialize, are strictly longer than the local chain, and are valid at
the instance difficulty, in input order. -/
def qualifying (H : String → String) (self : Blockchain)
    (neighbour_chains : List (List BlockDict)) : List (List Block) :=
  neighbour_chains.filterMap (fun raw =>
    (raw.mapM Block.from_dict).bind (fun c =>
      if c.length > self.chain.length ∧ validChain H self.difficulty c = true
      then some c else none))

/-- First-seen-wins selection of a longest chain among candidates. -/
def firstLongest (q : List Block) (qs : List (List Block)) : List Block :=
  qs.foldl (fun best c => if best.length < c.length then c else best) q

theorem firstLongest_cons (q c : List Block) (cs : List (List Block)) :
    firstLongest q (c :: cs) =
      firstLongest (if q.length < c.length then c else q) cs := rfl

theorem is_valid_some_of_ne (H : String → String) (self : Blockchain)
    (c : List Block) (hne : c ≠ []) :
    self.is_valid_chain H (some c) = validChain H self.difficulty c := by
  simp [Blockchain.is_valid_chain, hne]

theorem firstLongest_le (q : List Block) : ∀ qs : List (List Block),
    q.length ≤ (firstLongest q qs).length := by
  intro qs
  induction qs generalizing q with
  | nil => exact le_rfl
  | cons c cs ih =>
    rw [firstLongest_cons]
    by_cases hlt : q.length < c.length
    · rw [if_pos hlt]
      exact le_trans (le_of_lt hlt) (ih c)
    · rw [if_neg hlt]
      exact ih q

theorem firstLongest_mem (q : List Block) : ∀ qs : List (List Block),
    firstLongest q qs = q ∨ firstLongest q qs ∈ qs := by
  intro qs
  induction qs generalizing q with
  | nil => exact Or.inl rfl
  | cons c cs ih =>
    rw [firstLongest_cons]
    by_cases hlt : q.length < c.length
    · rw [if_pos hlt]
      rcases ih c with h | h
      · exact Or.inr (by rw [h]; exact List.mem_cons_self c cs)
      · exact Or.inr (List.mem_cons_of_mem c h)
    · rw [if_neg hlt]
      rcases ih q with h | h
      · exact Or.inl h
      · exact Or.inr (List.mem_cons_of_mem c h)

theorem qualifying_mem (H : String → String) (self : Blockchain)
    (raws : List (List BlockDict)) (c : List Block)
    (hc : c ∈ qualifying H self raws) :
    c.length > self.chain.length ∧ validChain H self.difficulty c = true := by
  unfold qualifying at hc
  obtain ⟨raw, _, hmap⟩ := List.mem_filterMap.mp hc
  rcases hd : raw.mapM Block.from_dict with _ | cb
  · rw [hd] at hmap; simp at hmap
  · rw [hd] at hmap
    simp only [Option.some_bind] at hmap
    by_cases hcond : cb.length > self.chain.length ∧
        validChain H self.difficulty cb = true
    · rw [if_pos hcond] at hmap
      obtain rfl : cb = c := by simpa using hmap
      exact hcond
    · rw [if_neg hcond] at hmap
      simp at hmap

theorem resolve_loop_some (H : String → String) (self : Blockchain) :
    ∀ (raws : List (List BlockDict)) (best : List Block),
    self.chain.length < best.length →
    resolve_loop H self raws (some best, best.length) =
      (some (firstLongest best (qualifying H self raws)),
       (firstLongest best (qualifying H self raws)).length) := by
  intro raws
  induction raws with
  | nil => intro best _; rfl
  | cons raw rest ih =>
    intro best hbest
    simp only [resolve_loop]
    rcases hd : raw.mapM Block.from_dict with _ | c
    · have hq : qualifying H self (raw :: rest) = qualifying H self rest := by
        unfold qualifying
        rw [List.filterMap_cons, hd]
        rfl
      rw [hq]
      simp only [hd]
      exact ih best hbest
    · by_cases hqual : c.length > self.chain.length ∧
          validChain H self.difficulty c = true
      · have hq : qualifying H self (raw :: rest) = c :: qualifying H self rest := by
          unfold qualifying
          rw [List.filterMap_cons, hd]
          simp only [Option.some_bind]
          rw [if_pos hqual]
        rw [hq]
        simp only [hd]
        by_cases hlen : c.length > best.length
        · have hcne : c ≠ [] := by
            intro hc0; rw [hc0] at hqual; simp at hqual
          rw [if_pos ⟨by simpa using hlen,
              by rw [is_valid_some_of_ne H self c hcne]; exact hqual.2⟩]
          rw [ih c hqual.1]
          rw [firstLongest_cons, if_pos (by omega : best.length < c.length)]
        · rw [if_neg (by
            intro hcon
            exact hlen (by simpa using hcon.1))]
          rw [ih best hbest]
          rw [firstLongest_cons, if_neg (by omega : ¬ best.length < c.length)]
      · have hq : qualifying H self (raw :: rest) = qualifying H self rest := by
          unfold qualifying
          rw [List.filterMap_cons, hd]
          simp only [Option.some_bind]
          rw [if_neg hqual]
        rw [hq]
        simp only [hd]
        rw [if_neg (by
          intro hcon
          have hclen : c.length > best.length := by simpa using hcon.1
          have hcne : c ≠ [] := by
            intro hc0; rw [hc0] at hclen; simp at hclen
          rw [is_valid_some_of_ne H self c hcne] at hcon
          exact hqual ⟨by omega, hcon.2⟩)]
        exact ih best hbest

theorem resolve_loop_start (H : String → String) (self : Blockchain) :
    ∀ raws : List (List BlockDict),
    resolve_loop H self raws (none, self.chain.length) =
      (match qualifying H self raws with
       | [] => (none, self.chain.length)
       | q :: qs => (some (firstLongest q qs), (firstLongest q qs).length)) := by
  intro raws
  induction raws with
  | nil => rfl
  | cons raw rest ih =>
    simp only [resolve_loop]
    rcases hd : raw.mapM Block.from_dict with _ | c
    · have hq : qualifying H self (raw :: rest) = qualifying H self rest := by
        unfold qualifying
        rw [List.filterMap_cons, hd]
        rfl
      rw [hq]
      simp only [hd]
      exact ih
    · by_cases hqual : c.length > self.chain.length ∧
          validChain H self.difficulty c = true
      · have hq : qualifying H self (raw :: rest) = c :: qualifying H self rest := by
          unfold qualifying
          rw [List.filterMap_cons, hd]
          simp only [Option.some_bind]
          rw [if_pos hqual]
        rw [hq]
        simp only [hd]
        have hcne : c ≠ [] := by
          intro hc0
          rw [hc0] at hqual
          simp at hqual
        rw [if_pos ⟨by simpa using hqual.1,
            by rw [is_valid_some_of_ne H self c hcne]; exact hqual.2⟩]
        exact resolve_loop_some H self rest c hqual.1
      · have hq : qualifying H self (raw :: rest) = qualifying H self rest := by
          unfold qualifying
          rw [List.filterMap_cons, hd]
          simp only [Option.some_bind]
          rw [if_neg hqual]
        rw [hq]
        simp only [hd]
        rw [if_neg (by
          intro hcon
          have hclen : c.length > self.chain.length := by simpa using hcon.1
          have hcne : c ≠ [] := by
            intro hc0; rw [hc0] at hclen; simp at hclen
          rw [is_valid_some_of_ne H self c hcne] at hcon
          exact hqual ⟨hclen, hcon.2⟩)]
        exact ih

theorem from_dict_to_dict (b : Block) : Block.from_dict (Block.to_dict b) = some b := rfl

theorem mapM_from_to (l : List Block) :
    (l.map Block.to_dict).mapM Block.from_dict = some l := by
  induction l with
  | nil => rfl
  | cons b t ih =>
    rw [List.map_cons, List.mapM_cons, from_dict_to_dict, ih]
    rfl

theorem validChain_ne_nil (H : String → String) (d : Nat) (c : List Block)
    (hv : validChain H d c = true) : c ≠ [] := by
  intro h
  rw [h] at hv
  simp [validChain] at hv

theorem blockString_ne_empty (b : Block) : blockString b ≠ "" := by
  intro h
  have hd := congrArg String.data h
  simp [blockString, blockChars] at hd

/-- Full characterization of a successful `mine_pending_transactions`. -/
theorem mine_ok_spec (H : String → String) (self : Blockchain) (ts : Int)
    (fuel : Nat) (s' : Blockchain) (b : Block)
    (h : self.mine_pending_transactions H ts fuel = (s', MineResult.ok b)) :
    self.pending_transactions ≠ [] ∧
    (∃ last, self.chain.getLast? = some last ∧ b.previous_hash = last.hash) ∧
    b.index = (self.chain.length : Int) ∧
    b.timestamp = ts ∧
    b.transactions = self.pending_transactions ∧
    b.hash = b.compute_hash H ∧
    str_starts (b.compute_hash H) (zeros self.difficulty) = true ∧
    s' = { self with chain := self.chain ++ [b], pending_transactions := [] } := by
  unfold Blockchain.mine_pending_transactions at h
  by_cases hp : self.pending_transactions = []
  · rw [if_pos hp] at h
    simp at h
  rw [if_neg hp] at h
  rcases hl : self.chain.getLast? with _ | last
  · simp only [hl] at h
    simp at h
  simp only [hl] at h
  unfold Blockchain.proof_of_work at h
  rcases hpw : pow_loop H self.difficulty
      { index := (self.chain.length : Int), timestamp := ts,
        transactions := self.pending_transactions,
        previous_hash := last.hash, nonce := 0, hash := "" } 0 fuel with _ | mined
  · simp only [hpw] at h
    simp at h
  simp only [hpw] at h
  simp only [Prod.mk.injEq, MineResult.ok.injEq] at h
  obtain ⟨hs', hb⟩ := h
  obtain ⟨n, _, hmined, hstarts, _⟩ := pow_loop_sound H self.difficulty _ fuel 0 mined hpw
  subst hb
  rw [hmined] at hs' ⊢
  exact ⟨hp, ⟨last, rfl, rfl⟩, rfl, rfl, rfl, rfl, hstarts, hs'.symm⟩

/-- One `Step` never changes the difficulty and keeps the own chain valid. -/
theorem step_preserves_valid (H : String → String) (s s' : Blockchain)
    (hst : Step H s s') (hv : validChain H s.difficulty s.chain = true) :
    s'.difficulty = s.difficulty ∧ validChain H s'.difficulty s'.chain = true := by
  cases hst with
  | add t s2 h =>
    unfold Blockchain.add_transaction at h
    rcases hval : validate_transaction t with e | u
    · rw [hval] at h
      simp at h
    · rw [hval] at h
      simp only [Prod.mk.injEq] at h
      rw [← h.1]
      exact ⟨rfl, hv⟩
  | mine ts fuel s2 b h =>
    obtain ⟨hpend, ⟨last, hl, hprev⟩, hidx, hts, htxs, hhash, hstarts, hs'⟩ :=
      mine_ok_spec H s ts fuel s' b h
    subst hs'
    refine ⟨rfl, ?_⟩
    exact validChain_snoc H s.difficulty s.chain b hv hidx last hl hprev hhash hstarts
  | resolve cands s2 r h =>
    unfold Blockchain.resolve_conflicts at h
    rw [resolve_loop_start H s cands] at h
    rcases hq : qualifying H s cands with _ | ⟨q, qs⟩
    · rw [hq] at h
      simp only [Prod.mk.injEq] at h
      rw [← h.1]
      exact ⟨rfl, hv⟩
    · rw [hq] at h
      have hmem : firstLongest q qs ∈ qualifying H s cands := by
        rw [hq]
        rcases firstLongest_mem q qs with hm | hm
        · rw [hm]; exact List.mem_cons_self q qs
        · exact List.mem_cons_of_mem q hm
      obtain ⟨hlong, hvalid⟩ := qualifying_mem H s cands _ hmem
      have hne : firstLongest q qs ≠ [] := by
        intro h0
        rw [h0] at hlong
        simp at hlong
      simp only at h
      rw [if_pos hne] at h
      simp only [Prod.mk.injEq] at h
      rw [← h.1]
      exact ⟨rfl, hvalid⟩

theorem init_valid (H : String → String) (hne : ∀ s, s ≠ "" → H s ≠ "")
    (d : Nat) (ts : Int) (fuel : Nat) (s0 : Blockchain)
    (h : initBlockchain H d ts fuel = some s0) :
    s0.difficulty = d ∧ validChain H d s0.chain = true := by
  unfold initBlockchain Blockchain.create_genesis_block Blockchain.proof_of_work at h
  rcases hpw : pow_loop H d
      { index := 0, timestamp := ts, transactions := [],
        previous_hash := "0", nonce := 0, hash := "" } 0 fuel with _ | g
  · simp only [hpw] at h
    simp at h
  simp only [hpw] at h
  simp only [Option.map_some', Option.some.injEq] at h
  obtain ⟨n, _, hg, hstarts, _⟩ := pow_loop_sound H d _ fuel 0 g hpw
  subst h
  refine ⟨rfl, ?_⟩
  show validChain H d [g] = true
  rw [validChain_cons_iff]
  refine ⟨⟨?_, ?_, ?_, ?_, ?_⟩, rfl⟩
  · rw [hg]
  · rw [hg]
  · rw [hg]
    exact hne _ (blockString_ne_empty _)
  · rw [hg]
    exact hstarts
  · rw [hg]
    rfl

/-! Concrete data used by the claim witnesses: an identity digest
function (injective, preserves non-emptiness), a difficulty-0 ledger with
a mined genesis block, one well-formed transaction and one mined block on
top of the genesis block. -/

/-- Witness digest function. -/
def HW : String → String := fun s => s

/-- Unmined genesis block record (timestamp 0). -/
def gW : Block :=
  { index := 0, timestamp := 0, transactions := [], previous_hash := "0",
    nonce := 0, hash := "" }

/-- Mined genesis block at difficulty 0. -/
def gWm : Block := { gW with hash := gW.compute_hash HW }

/-- A well-formed transaction in canonical key order. -/
def txW : Tx :=
  [("amount", JVal.int 10), ("recipient", JVal.str "Bob"),
   ("sender", JVal.str "Alice")]

/-- A difficulty-0 ledger holding just the mined genesis block. -/
def bcW : Blockchain :=
  { difficulty := 0, chain := [gWm], pending_transactions := [] }

/-- Unmined successor block carrying `txW`. -/
def bB : Block :=
  { index := 1, timestamp := 0, transactions := [txW],
    previous_hash := gWm.hash, nonce := 0, hash := "" }

/-- Mined successor block at difficulty 0. -/
def bBm : Block := { bB with hash := bB.compute_hash HW }

/-- C1: for every non-empty chain of blocks and every difficulty d ≥ 0,
`is_valid_chain(chain)` returns true iff the first block has index 0,
previous hash `"0"` and a non-empty stored hash equal to its recomputed
digest and meeting the d-zero prefix, and every later block at position i
has index i, previous hash equal to the stored hash of block i-1, a
recomputed digest equal to its stored hash, and a stored hash meeting the
d-zero prefix. -/
theorem C1_is_valid_chain_characterization (H : String → String) (d : Nat)
    (sc : List Block) (pend : List Tx) (g : Block) (rest : List Block) :
    Blockchain.is_valid_chain H ⟨d, sc, pend⟩ (some (g :: rest)) = true ↔
      (g.index = 0 ∧ g.previous_hash = "0" ∧ g.hash ≠ "" ∧
       g.hash = g.compute_hash H ∧ str_starts g.hash (zeros d) = true) ∧
      (∀ i (hi : i < (g :: rest).length), 0 < i →
        ((g :: rest).get ⟨i, hi⟩).index = (i : Int) ∧
        ((g :: rest).get ⟨i, hi⟩).previous_hash =
          ((g :: rest).get ⟨i - 1, by omega⟩).hash ∧
        ((g :: rest).get ⟨i, hi⟩).compute_hash H = ((g :: rest).get ⟨i, hi⟩).hash ∧
        str_starts (((g :: rest).get ⟨i, hi⟩).hash) (zeros d) = true) := by
  have hred : Blockchain.is_valid_chain H ⟨d, sc, pend⟩ (some (g :: rest)) =
      validChain H d (g :: rest) := rfl
  rw [hred, validChain_cons_iff, checkRest_iff]
  constructor
  · rintro ⟨⟨hg1, hg2, hg3, hg4, hg5⟩, hrest⟩
    refine ⟨⟨hg1, hg2, hg3, hg5, hg4⟩, ?_⟩
    intro i hi hpos
    obtain ⟨j, rfl⟩ : ∃ j, i = j + 1 := ⟨i - 1, by omega⟩
    have hj : j < rest.length := by simpa using hi
    obtain ⟨hc1, hc2, hc3, hc4⟩ := hrest j hj
    simp only [List.get_eq_getElem, List.getElem_cons_succ] at hc1 hc2 hc3 hc4 ⊢
    refine ⟨by rw [hc1]; push_cast; omega, ?_, ?_, ?_⟩
    · simpa using hc2
    · exact hc4.symm
    · rw [hc4]; exact hc3
  · rintro ⟨⟨hg1, hg2, hg3, hg4, hg5⟩, hall⟩
    refine ⟨⟨hg1, hg2, hg3, hg5, hg4⟩, ?_⟩
    intro j hj
    have hi : j + 1 < (g :: rest).length := by simpa using hj
    obtain ⟨hc1, hc2, hc3, hc4⟩ := hall (j + 1) hi (Nat.succ_pos j)
    simp only [List.get_eq_getElem, List.getElem_cons_succ] at hc1 hc2 hc3 hc4 ⊢
    refine ⟨by rw [hc1]; push_cast; omega, ?_, ?_, ?_⟩
    · simpa using hc2
    · rw [hc3]; exact hc4
    · exact hc3.symm

/-- Closed instance of C1: the singleton chain holding the mined genesis
block is valid at difficulty 0. -/
theorem C1_witness :
    Blockchain.is_valid_chain HW ⟨0, [], []⟩ (some [gWm]) = true :=
  (C1_is_valid_chain_characterization HW 0 [] [] gWm []).mpr
    ⟨⟨by decide, by decide, by decide, by decide, by decide⟩,
     fun _ hi hpos => absurd hi (by simp only [List.length_singleton]; omega)⟩

/-- C2: the claim states that an explicitly supplied empty chain is
reported invalid for every instance.  In the code, `chain or self.chain`
treats the empty list as falsy, so `is_valid_chain([])` silently falls
back to validating the instance's own chain: on any instance whose own
chain is valid it returns true, contradicting the claim.  `bcW` (a
difficulty-0 ledger with a mined genesis block) is such an instance. -/
theorem C2_empty_chain_argument_falls_back :
    (∀ (H : String → String) (self : Blockchain),
        self.is_valid_chain H (some []) = self.is_valid_chain H none) ∧
    Blockchain.is_valid_chain HW bcW (some []) = true :=
  ⟨fun _ _ => rfl, by decide⟩

/-- Every member of `q :: qs` has length at most that of
`firstLongest q qs`. -/
theorem firstLongest_ge_mem (qs : List (List Block)) :
    ∀ (q c : List Block), c ∈ q :: qs → c.length ≤ (firstLongest q qs).length := by
  induction qs with
  | nil =>
    intro q c hc
    rcases List.mem_cons.mp hc with rfl | h
    · exact Nat.le_refl _
    · simp at h
  | cons d ds ih =>
    intro q c hc
    rw [firstLongest_cons]
    have hstep : q.length ≤ (if q.length < d.length then d else q).length ∧
        d.length ≤ (if q.length < d.length then d else q).length := by
      by_cases hlt : q.length < d.length
      · rw [if_pos hlt]; exact ⟨Nat.le_of_lt hlt, Nat.le_refl _⟩
      · rw [if_neg hlt]; exact ⟨Nat.le_refl _, Nat.le_of_not_lt hlt⟩
    have hbase := firstLongest_le (if q.length < d.length then d else q) ds
    rcases List.mem_cons.mp hc with rfl | h
    · exact Nat.le_trans hstep.1 hbase
    · rcases List.mem_cons.mp h with rfl | h2
      · exact Nat.le_trans hstep.2 hbase
      · exact ih _ c (List.mem_cons_of_mem _ h2)

/-- C3: `resolve_conflicts` succeeds (returns true) iff some candidate
parses block-for-block via `from_dict`, passes `is_valid_chain` and is
strictly longer than the current chain; on failure the state is
unchanged; on success the chain is replaced by the first-seen longest
qualifying candidate, whose length dominates every qualifying
candidate. -/
theorem C3_resolve_conflicts_spec (H : String → String) (self : Blockchain)
    (raws : List (List BlockDict)) :
    ((self.resolve_conflicts H raws).2 = true ↔ qualifying H self raws ≠ []) ∧
    (qualifying H self raws = [] → self.resolve_conflicts H raws = (self, false)) ∧
    (∀ q qs, qualifying H self raws = q :: qs →
      self.resolve_conflicts H raws =
        ({ self with chain := firstLongest q qs }, true) ∧
      ∀ c ∈ q :: qs, c.length ≤ (firstLongest q qs).length) := by
  rcases hq : qualifying H self raws with _ | ⟨q, qs⟩
  · have hr : self.resolve_conflicts H raws = (self, false) := by
      unfold Blockchain.resolve_conflicts
      rw [resolve_loop_start, hq]
    refine ⟨?_, fun _ => hr, fun q qs hcon => List.noConfusion hcon⟩
    rw [hr]; simp
  · have hmem : firstLongest q qs ∈ q :: qs :=
      List.mem_cons.mpr (firstLongest_mem q qs)
    have hmemq : firstLongest q qs ∈ qualifying H self raws := by
      rw [hq]; exact hmem
    have hne : firstLongest q qs ≠ [] := by
      intro h0
      have hlen := (qualifying_mem H self raws _ hmemq).1
      rw [h0] at hlen
      simp at hlen
    have hr : self.resolve_conflicts H raws =
        ({ self with chain := firstLongest q qs }, true) := by
      unfold Blockchain.resolve_conflicts
      rw [resolve_loop_start, hq]
      show (if firstLongest q qs ≠ [] then
          ({ self with chain := firstLongest q qs }, true)
        else (self, false)) =
        ({ self with chain := firstLongest q qs }, true)
      rw [if_pos hne]
    refine ⟨?_, fun h0 => List.noConfusion h0, ?_⟩
    · rw [hr]; simp
    · intro q2 qs2 hcon
      obtain ⟨rfl, rfl⟩ : q2 = q ∧ qs2 = qs := by
        injection hcon with h1 h2; exact ⟨h1.symm, h2.symm⟩
      exact ⟨hr, fun c hc => firstLongest_ge_mem _ _ c hc⟩

set_option maxRecDepth 100000 in
/-- Closed instance of C3: a single neighbour offering the serialized
two-block chain `[gWm, bBm]` makes `resolve_conflicts` adopt it. -/
theorem C3_witness :
    qualifying HW bcW [[Block.to_dict gWm, Block.to_dict bBm]] = [[gWm, bBm]] ∧
    Blockchain.resolve_conflicts HW bcW [[Block.to_dict gWm, Block.to_dict bBm]] =
      ({ bcW with chain := firstLongest [gWm, bBm] [] }, true) :=
  ⟨by decide,
   ((C3_resolve_conflicts_spec HW bcW
       [[Block.to_dict gWm, Block.to_dict bBm]]).2.2 [gWm, bBm] []
     (by decide)).1⟩

/-- C4: whenever some nonce meets the difficulty target, `proof_of_work`
(given enough fuel, i.e. the unbounded Python loop terminates) returns
the block stamped with the least such nonce N and with its stored hash
set to the recomputed digest at nonce N; the block's initial nonce and
hash fields are irrelevant to the search. -/
theorem C4_proof_of_work_least_nonce (H : String → String)
    (self : Blockchain) (b : Block) (n0 : Int) (h0 : String)
    (hex : ∃ n : Nat, str_starts
      (Block.compute_hash H { b with nonce := (n : Int) })
      (zeros self.difficulty) = true) :
    ∃ N : Nat,
      (str_starts (Block.compute_hash H { b with nonce := (N : Int) })
          (zeros self.difficulty) = true ∧
        ∀ k : Nat, k < N →
          str_starts (Block.compute_hash H { b with nonce := (k : Int) })
            (zeros self.difficulty) = false) ∧
      ∀ fuel : Nat, N < fuel →
        Blockchain.proof_of_work H self { b with nonce := n0, hash := h0 } fuel =
          some { b with
                 nonce := ((N : Nat) : Int),
                 hash := Block.compute_hash H { b with nonce := ((N : Nat) : Int) } } := by
  classical
  refine ⟨Nat.find hex, ⟨Nat.find_spec hex, ?_⟩, ?_⟩
  · intro k hk
    have := Nat.find_min hex hk
    simpa using this
  · intro fuel hfuel
    unfold Blockchain.proof_of_work
    rw [pow_loop_initial]
    exact pow_loop_complete H self.difficulty b fuel 0 (Nat.find hex)
      (Nat.zero_le _) (by omega) (Nat.find_spec hex)
      (fun k _ hk => by simpa using Nat.find_min hex hk)

/-- Closed instance of C4: at difficulty 0 the least qualifying nonce for
the genesis record is found immediately, whatever the initial nonce and
hash fields were. -/
theorem C4_witness :
    (∃ n : Nat, str_starts
      (Block.compute_hash HW { gW with nonce := (n : Int) })
      (zeros bcW.difficulty) = true) ∧
    ∃ N : Nat,
      (str_starts (Block.compute_hash HW { gW with nonce := (N : Int) })
          (zeros bcW.difficulty) = true ∧
        ∀ k : Nat, k < N →
          str_starts (Block.compute_hash HW { gW with nonce := (k : Int) })
            (zeros bcW.difficulty) = false) ∧
      ∀ fuel : Nat, N < fuel →
        Blockchain.proof_of_work HW bcW { gW with nonce := 5, hash := "xyz" } fuel =
          some { gW with
                 nonce := ((N : Nat) : Int),
                 hash := Block.compute_hash HW { gW with nonce := ((N : Nat) : Int) } } :=
  ⟨⟨0, by decide⟩,
   C4_proof_of_work_least_nonce HW bcW gW 5 "xyz" ⟨0, by decide⟩⟩

/-- C5: tamper-evidence.  With an injective (collision-free) digest
function, overwriting any single field of any block of a valid chain with
a different value makes `is_valid_chain` report the chain invalid. -/
theorem C5_tampering_invalidates (H : String → String)
    (hH : Function.Injective H) (d : Nat) (sc : List Block) (pend : List Tx)
    (chain : List Block)
    (hv : Blockchain.is_valid_chain H ⟨d, sc, pend⟩ (some chain) = true)
    (i : Nat) (hi : i < chain.length) (m : FieldMutation)
    (hne : applyMutation m (chain.get ⟨i, hi⟩) ≠ chain.get ⟨i, hi⟩) :
    Blockchain.is_valid_chain H ⟨d, sc, pend⟩
      (some (chain.set i (applyMutation m (chain.get ⟨i, hi⟩)))) = false := by
  have hcne : chain ≠ [] := by
    intro h0; rw [h0] at hi; simp at hi
  rw [is_valid_some_of_ne H ⟨d, sc, pend⟩ chain hcne] at hv
  have hsne : chain.set i (applyMutation m (chain.get ⟨i, hi⟩)) ≠ [] := by
    intro h0
    have := congrArg List.length h0
    simp at this
    rw [this] at hi; simp at hi
  rw [is_valid_some_of_ne H ⟨d, sc, pend⟩ _ hsne]
  exact mutation_invalidates H hH d chain hv i hi m hne

set_option maxRecDepth 100000 in
/-- Closed instance of C5: rewriting the genesis block's nonce to 7 in
the valid singleton chain makes validation fail under the (injective)
identity digest. -/
theorem C5_witness :
    Function.Injective HW ∧
    Blockchain.is_valid_chain HW ⟨0, [], []⟩ (some [gWm]) = true ∧
    applyMutation (FieldMutation.setNonce 7) ([gWm].get ⟨0, by decide⟩) ≠
      [gWm].get ⟨0, by decide⟩ ∧
    Blockchain.is_valid_chain HW ⟨0, [], []⟩
      (some ([gWm].set 0
        (applyMutation (FieldMutation.setNonce 7) ([gWm].get ⟨0, by decide⟩)))) =
      false :=
  ⟨fun _ _ h => h, by decide, by decide,
   C5_tampering_invalidates HW (fun _ _ h => h) 0 [] [] [gWm] (by decide) 0
     (by decide) (FieldMutation.setNonce 7) (by decide)⟩

/-- C6: when `mine_pending_transactions` succeeds, the new state has an
empty transaction pool, its chain is the old chain with exactly one block
appended at the end, and the appended block's index equals the old chain
length, its previous hash is the stored hash of the old last block, and
it carries exactly the old pending transactions. -/
theorem C6_mine_success_postconditions (H : String → String)
    (self : Blockchain) (ts : Int) (fuel : Nat) (s' : Blockchain) (b : Block)
    (h : self.mine_pending_transactions H ts fuel = (s', MineResult.ok b)) :
    s'.pending_transactions = [] ∧
    s'.chain = self.chain ++ [b] ∧
    s'.chain.length = self.chain.length + 1 ∧
    b.index = (self.chain.length : Int) ∧
    (∃ last, self.chain.getLast? = some last ∧ b.previous_hash = last.hash) ∧
    b.transactions = self.pending_transactions := by
  obtain ⟨_, hex, hidx, _, htxs, _, _, hs'⟩ := mine_ok_spec H self ts fuel s' b h
  subst hs'
  exact ⟨rfl, rfl, by simp, hidx, hex, htxs⟩

set_option maxRecDepth 100000 in
/-- Closed instance of C6: mining one pending transaction on top of the
genesis chain at difficulty 0 appends `bBm` and clears the pool. -/
theorem C6_witness :
    Blockchain.mine_pending_transactions HW
        { bcW with pending_transactions := [txW] } 0 1 =
      ({ difficulty := 0, chain := [gWm, bBm], pending_transactions := [] },
       MineResult.ok bBm) ∧
    ((({ difficulty := 0, chain := [gWm, bBm],
         pending_transactions := [] } : Blockchain).pending_transactions = []) ∧
     (({ difficulty := 0, chain := [gWm, bBm],
         pending_transactions := [] } : Blockchain).chain =
       ({ bcW with pending_transactions := [txW] } : Blockchain).chain ++ [bBm]) ∧
     (({ difficulty := 0, chain := [gWm, bBm],
         pending_transactions := [] } : Blockchain).chain.length =
       ({ bcW with pending_transactions := [txW] } : Blockchain).chain.length + 1) ∧
     (bBm.index =
       ((({ bcW with pending_transactions := [txW] } : Blockchain).chain.length : Nat) : Int)) ∧
     (∃ last, ({ bcW with pending_transactions := [txW] } : Blockchain).chain.getLast? =
        some last ∧ bBm.previous_hash = last.hash) ∧
     (bBm.transactions =
       ({ bcW with pending_transactions := [txW] } : Blockchain).pending_transactions)) :=
  ⟨by decide,
   C6_mine_success_postconditions HW { bcW with pending_transactions := [txW] }
     0 1 _ bBm (by decide)⟩

/-- C7: calling `mine_pending_transactions` with an empty pool raises
`ValueError("No transactions to mine")` and leaves the state unchanged. -/
theorem C7_mine_empty_pool_rejected (H : String → String) (self : Blockchain)
    (ts : Int) (fuel : Nat) (h : self.pending_transactions = []) :
    self.mine_pending_transactions H ts fuel =
      (self, MineResult.valueError "No transactions to mine") := by
  unfold Blockchain.mine_pending_transactions
  rw [if_pos h]

/-- Closed instance of C7: mining on `bcW`, whose pool is empty, raises
and changes nothing. -/
theorem C7_witness :
    bcW.pending_transactions = [] ∧
    Blockchain.mine_pending_transactions HW bcW 0 5 =
      (bcW, MineResult.valueError "No transactions to mine") :=
  ⟨rfl, C7_mine_empty_pool_rejected HW bcW 0 5 rfl⟩

/-- C8: `add_transaction(t)` raises a validation error iff `t` lacks one
of the keys `sender`, `recipient`, `amount`, or its amount is not a
positive number; when it raises the state (hence the pending pool) is
unchanged; when it succeeds, `t` is appended at the end of the pending
pool, leaving all prior entries in order. -/
theorem C8_add_transaction_validation (self : Blockchain) (t : Tx) :
    ((∃ msg, self.add_transaction t = (self, Except.error msg)) ↔
      (t.lookup "sender" = none ∨ t.lookup "recipient" = none ∨
       t.lookup "amount" = none ∨
       ∃ a, t.lookup "amount" = some a ∧
         (isNumber a = false ∨ numVal a ≤ 0))) ∧
    ((t.lookup "sender" ≠ none ∧ t.lookup "recipient" ≠ none ∧
      ∃ a, t.lookup "amount" = some a ∧ isNumber a = true ∧ 0 < numVal a) →
      self.add_transaction t =
        ({ self with
           pending_transactions := self.pending_transactions ++ [t] },
         Except.ok ())) := by
  rcases hs : t.lookup "sender" with _ | vs <;>
    rcases hr : t.lookup "recipient" with _ | vr <;>
      rcases ha : t.lookup "amount" with _ | va
  · have hval : self.add_transaction t =
        (self, Except.error "Transaction missing required fields") := by
      have hv2 : validate_transaction t =
          Except.error "Transaction missing required fields" := by
        unfold validate_transaction
        rw [hs, hr, ha]
      unfold Blockchain.add_transaction
      rw [hv2]
    exact ⟨⟨fun _ => Or.inl rfl,
            fun _ => ⟨"Transaction missing required fields", hval⟩⟩,
           fun hc => absurd rfl hc.1⟩
  · have hval : self.add_transaction t =
        (self, Except.error "Transaction missing required fields") := by
      have hv2 : validate_transaction t =
          Except.error "Transaction missing required fields" := by
        unfold validate_transaction
        rw [hs, hr, ha]
      unfold Blockchain.add_transaction
      rw [hv2]
    exact ⟨⟨fun _ => Or.inl rfl,
            fun _ => ⟨"Transaction missing required fields", hval⟩⟩,
           fun hc => absurd rfl hc.1⟩
  · have hval : self.add_transaction t =
        (self, Except.error "Transaction missing required fields") := by
      have hv2 : validate_transaction t =
          Except.error "Transaction missing required fields" := by
        unfold validate_transaction
        rw [hs, hr, ha]
      unfold Blockchain.add_transaction
      rw [hv2]
    exact ⟨⟨fun _ => Or.inl rfl,
            fun _ => ⟨"Transaction missing required fields", hval⟩⟩,
           fun hc => absurd rfl hc.1⟩
  · have hval : self.add_transaction t =
        (self, Except.error "Transaction missing required fields") := by
      have hv2 : validate_transaction t =
          Except.error "Transaction missing required fields" := by
        unfold validate_transaction
        rw [hs, hr, ha]
      unfold Blockchain.add_transaction
      rw [hv2]
    exact ⟨⟨fun _ => Or.inl rfl,
            fun _ => ⟨"Transaction missing required fields", hval⟩⟩,
           fun hc => absurd rfl hc.1⟩
  · have hval : self.add_transaction t =
        (self, Except.error "Transaction missing required fields") := by
      have hv2 : validate_transaction t =
          Except.error "Transaction missing required fields" := by
        unfold validate_transaction
        rw [hs, hr, ha]
      unfold Blockchain.add_transaction
      rw [hv2]
    exact ⟨⟨fun _ => Or.inr (Or.inl rfl),
            fun _ => ⟨"Transaction missing required fields", hval⟩⟩,
           fun hc => absurd rfl hc.2.1⟩
  · have hval : self.add_transaction t =
        (self, Except.error "Transaction missing required fields") := by
      have hv2 : validate_transaction t =
          Except.error "Transaction missing required fields" := by
        unfold validate_transaction
        rw [hs, hr, ha]
      unfold Blockchain.add_transaction
      rw [hv2]
    exact ⟨⟨fun _ => Or.inr (Or.inl rfl),
            fun _ => ⟨"Transaction missing required fields", hval⟩⟩,
           fun hc => absurd rfl hc.2.1⟩
  · have hval : self.add_transaction t =
        (self, Except.error "Transaction missing required fields") := by
      have hv2 : validate_transaction t =
          Except.error "Transaction missing required fields" := by
        unfold validate_transaction
        rw [hs, hr, ha]
      unfold Blockchain.add_transaction
      rw [hv2]
    exact ⟨⟨fun _ => Or.inr (Or.inr (Or.inl rfl)),
            fun _ => ⟨"Transaction missing required fields", hval⟩⟩,
           fun hc => hc.2.2.elim fun a h2 => Option.noConfusion h2.1⟩
  · by_cases hbad : isNumber va = false ∨ numVal va ≤ 0
    · have hif : ¬ (isNumber va = true) ∨ numVal va ≤ 0 := by
        rcases hbad with h | h
        · exact Or.inl (by rw [h]; simp)
        · exact Or.inr h
      have hv2 : validate_transaction t =
          Except.error "Transaction amount must be a positive number" := by
        unfold validate_transaction
        rw [hs, hr, ha]
        show (if ¬ (isNumber va = true) ∨ numVal va ≤ 0 then
            (Except.error "Transaction amount must be a positive number" :
              Except String Unit)
          else Except.ok ()) =
          Except.error "Transaction amount must be a positive number"
        rw [if_pos hif]
      have hval : self.add_transaction t =
          (self, Except.error "Transaction amount must be a positive number") := by
        unfold Blockchain.add_transaction
        rw [hv2]
      refine ⟨⟨fun _ => Or.inr (Or.inr (Or.inr ⟨va, rfl, hbad⟩)),
              fun _ => ⟨"Transaction amount must be a positive number", hval⟩⟩, ?_⟩
      rintro ⟨-, -, a, haeq, hn, hp⟩
      injection haeq with he
      subst he
      rcases hbad with h | h
      · rw [h] at hn; exact absurd hn (by decide)
      · omega
    · have hnum : isNumber va = true := by
        cases hb : isNumber va
        · exact absurd (Or.inl hb) hbad
        · rfl
      have hposv : 0 < numVal va := by
        by_contra hn
        exact hbad (Or.inr (by omega))
      have hif : ¬ (¬ (isNumber va = true) ∨ numVal va ≤ 0) := by
        rintro (h | h)
        · exact h hnum
        · omega
      have hv2 : validate_transaction t = Except.ok () := by
        unfold validate_transaction
        rw [hs, hr, ha]
        show (if ¬ (isNumber va = true) ∨ numVal va ≤ 0 then
            (Except.error "Transaction amount must be a positive number" :
              Except String Unit)
          else Except.ok ()) = Except.ok ()
        rw [if_neg hif]
      have hval : self.add_transaction t =
          ({ self with
             pending_transactions := self.pending_transactions ++ [t] },
           Except.ok ()) := by
        unfold Blockchain.add_transaction
        rw [hv2]
      refine ⟨⟨?_, ?_⟩, fun _ => hval⟩
      · rintro ⟨msg, hm⟩
        rw [hval] at hm
        injection hm with h1 h2
        exact Except.noConfusion h2
      · rintro (h | h | h | ⟨a, haeq, hbada⟩)
        · exact Option.noConfusion h
        · exact Option.noConfusion h
        · exact Option.noConfusion h
        · injection haeq with he
          subst he
          exact absurd hbada hbad

/-- Closed instance of C8: adding the well-formed transaction `txW` to
`bcW` succeeds and appends it to the (previously empty) pool. -/
theorem C8_witness :
    Blockchain.add_transaction bcW txW =
      ({ bcW with pending_transactions := bcW.pending_transactions ++ [txW] },
       Except.ok ()) := by
  refine (C8_add_transaction_validation bcW txW).2 ⟨?_, ?_, ?_⟩
  · intro h; exact absurd h (by decide)
  · intro h; exact absurd h (by decide)
  · exact ⟨JVal.int 10, by decide, by decide, by decide⟩

/-- C9: for a ledger whose own chain is valid at its difficulty, saving
with `save_chain` and loading the saved document back with `load_chain`
restores the chain and the pending pool field-for-field and returns
true. -/
theorem C9_save_load_roundtrip (H : String → String) (bc : Blockchain)
    (hv : bc.is_valid_chain H none = true) :
    bc.load_chain H (some bc.save_chain) = (bc, true) := by
  have hvc : validChain H bc.difficulty bc.chain = true := hv
  have hne2 : bc.chain ≠ [] := validChain_ne_nil H bc.difficulty bc.chain hvc
  have hcond : bc.is_valid_chain H (some bc.chain) = true := by
    rw [is_valid_some_of_ne H bc bc.chain hne2]
    exact hvc
  have hparsed : ((bc.chain.map Block.to_dict).mapM Block.from_dict).map
      (fun c => (c, bc.pending_transactions)) =
        some (bc.chain, bc.pending_transactions) := by
    rw [mapM_from_to]
    rfl
  show (match ((bc.chain.map Block.to_dict).mapM Block.from_dict).map
      (fun c => (c, bc.pending_transactions)) with
    | none => (bc, false)
    | some (loaded, pending) =>
      if bc.is_valid_chain H (some loaded) = true then
        ({ bc with chain := loaded, pending_transactions := pending }, true)
      else (bc, false)) = (bc, true)
  rw [hparsed]
  show (if bc.is_valid_chain H (some bc.chain) = true then
      ({ bc with chain := bc.chain, pending_transactions := bc.pending_transactions }, true)
    else (bc, false)) = (bc, true)
  rw [if_pos hcond]

/-- Closed instance of C9: the round trip on `bcW`. -/
theorem C9_witness :
    Blockchain.is_valid_chain HW bcW none = true ∧
    Blockchain.load_chain HW bcW (some bcW.save_chain) = (bcW, true) :=
  ⟨by decide, C9_save_load_roundtrip HW bcW (by decide)⟩

/-- C10: if the digest function maps non-empty strings to non-empty
strings, then starting from a freshly bootstrapped ledger (genesis
mining succeeded) every state reachable by successful `add_transaction`,
`mine_pending_transactions` and `resolve_conflicts` steps has a chain
that `is_valid_chain` accepts at the ledger's difficulty. -/
theorem C10_reachable_states_valid (H : String → String)
    (hne : ∀ s, s ≠ "" → H s ≠ "") (d : Nat) (ts : Int) (fuel : Nat)
    (s0 : Blockchain) (hinit : initBlockchain H d ts fuel = some s0)
    (s : Blockchain) (hreach : Relation.ReflTransGen (Step H) s0 s) :
    s.is_valid_chain H none = true := by
  obtain ⟨hd0, hv0⟩ := init_valid H hne d ts fuel s0 hinit
  have hmain : validChain H s.difficulty s.chain = true := by
    induction hreach with
    | refl => rw [hd0]; exact hv0
    | tail hab hbc ih => exact (step_preserves_valid H _ _ hbc ih).2
  exact hmain

set_option maxRecDepth 100000 in
/-- Closed instance of C10: the identity digest preserves non-emptiness,
bootstrapping at difficulty 0 yields `bcW`, and the freshly bootstrapped
state itself validates. -/
theorem C10_witness :
    (∀ s : String, s ≠ "" → HW s ≠ "") ∧
    initBlockchain HW 0 0 1 = some bcW ∧
    Blockchain.is_valid_chain HW bcW none = true :=
  ⟨fun _ hs => hs, by decide,
   C10_reachable_states_valid HW (fun _ hs => hs) 0 0 1 bcW (by decide) bcW
     Relation.ReflTransGen.refl⟩
